import Mathlib

/-!
# jsonmail: MIME tree builder and text body selector

A shallow embedding of `jsonmail.go` (package `jsonmail` of `oov/mail`).

Conventions of the embedding.

* A Go `string` is a `String` whose characters stand for the bytes of the Go
  string, so `String.length` is Go `len` and `String.take n` is the slice `s[:n]`.
  A `[]byte` is a `List UInt8`; `asString` is the conversion `string(bytes)`.
* A Go `error` is carried by its message: `GoError := Option String`, `none` is `nil`.
* Pointers to `JSONMail` become values of an inductive tree; the unexported
  back-reference `parent` is not represented. `parseMessage` appends the new node
  to `parent.Children` before anything can fail and fills it in through the
  pointer afterwards, so the embedding returns the parent with the finished node
  appended.
* Functions of other packages (`mime`, `go.net/html`, `go.net/html/charset`,
  `github.com/oov/mail`) are parameters, collected in `Lib`. `strings.ToLower` is
  `ToLower`, which lowers the ASCII letters: the code only compares its result
  with ASCII literals, on a media type or on a slice of at most ten bytes, where
  lower-casing the ASCII letters decides the comparison.
-/

namespace jsonmail

/-! ## Data model -/

/-- A Go error value, carried by its message; `none` is `nil`. -/
abbrev GoError := Option String

/-- The type `textproto.MIMEHeader`, a map from field name to values, kept as an
association list. -/
abbrev MIMEHeader := List (String × List String)

/-- The function `strings.ToLower`, on the ASCII letters. -/
def ToLower (s : String) : String :=
  String.mk (s.data.map Char.toLower)

/-- The method `MIMEHeader.Get` for a key that is already in canonical form, as
are the three keys the package asks for: the first value stored under the key,
or the empty string. -/
def MIMEHeader.Get (h : MIMEHeader) (key : String) : String :=
  match h.lookup key with
  | some (v :: _) => v
  | _ => ""

/-- The map assignment `h[k] = vs`. -/
def MIMEHeader.set : MIMEHeader → String → List String → MIMEHeader
  | [], k, vs => [(k, vs)]
  | (k', vs') :: rest, k, vs =>
    if k' == k then (k, vs) :: rest else (k', vs') :: MIMEHeader.set rest k vs

/-- The struct `JSONMail` (without the unexported `parent` back-reference). -/
structure JSONMail where
  Header : MIMEHeader
  IsText : Bool
  Body : String
  IsMultipart : Bool
  Error : String
  Children : List JSONMail

/-- The zero value `var jsmRoot JSONMail`. -/
def JSONMail.zero : JSONMail :=
  { Header := [], IsText := false, Body := "", IsMultipart := false, Error := "", Children := [] }

/-- Node kinds of `go.net/html`. -/
inductive NodeType where
  | ErrorNode | TextNode | DocumentNode | ElementNode | CommentNode | DoctypeNode
  deriving DecidableEq, Repr

/-- A node of `go.net/html`; `Children` is the chain `FirstChild`, `NextSibling`, ... -/
structure Node where
  Kind : NodeType
  Data : String
  Children : List Node

mutual
/-- An `io.Reader` as `parseMessage` receives it: the chunks that successive
`Read` calls deliver, the error that ends them (`none` for `io.EOF`), and what a
`multipart.Reader` over it with a given boundary yields. -/
inductive Reader where
  | mk (chunks : List (List UInt8)) (err : GoError) (split : String → Parts)
/-- What successive calls of `multipart.Reader.NextPart` return: a part (its
header and its body reader), or the error that ends the iteration. -/
inductive Parts where
  | EOF
  | fail (msg : String)
  | part (header : MIMEHeader) (body : Reader) (rest : Parts)
end

def Reader.chunks : Reader → List (List UInt8)
  | .mk cs _ _ => cs

def Reader.err : Reader → GoError
  | .mk _ e _ => e

def Reader.split : Reader → String → Parts
  | .mk _ _ s => s

/-- The error a `NextPart` loop ends with. -/
inductive NextErr where
  | EOF
  | other (msg : String)
  deriving DecidableEq, Repr

/-- The collaborators from other packages. -/
structure Lib where
  /-- The function `mime.ParseMediaType`: media type, parameters, error. -/
  ParseMediaType : String → String × List (String × String) × GoError
  /-- The function `Parse` of `go.net/html`. -/
  HtmlParse : String → Except String Node
  /-- The function `mail.DecodeRFC2047`. -/
  DecodeRFC2047 : String → String
  /-- The function `mail.TransferEncodingDecoder`. -/
  TransferEncodingDecoder : Reader → String → Except String Reader
  /-- The function `charset.NewReader`. -/
  CharsetNewReader : Reader → String → Except String Reader

/-- The type `mail.Message`, as far as `Parse` reads it. -/
structure Message where
  Header : MIMEHeader
  Body : Reader

/-! ## Text body selector -/

mutual
/-- Source: `getNodeText`. -/
def getNodeText : Node → String
  | ⟨t, data, cs⟩ =>
    if t = NodeType.TextNode then data
    else if !cs.isEmpty then getNodeText.loop "" cs
    else ""
/-- The loop `for c := node.FirstChild; c != nil; c = c.NextSibling` of
`getNodeText`, writing into `buf`. -/
def getNodeText.loop (buf : String) : List Node → String
  | [] => buf
  | c :: rest =>
    if c.Kind = NodeType.ElementNode && (c.Data == "script" || c.Data == "style") then
      getNodeText.loop buf rest
    else
      getNodeText.loop (buf ++ getNodeText c) rest
end

/-- Source: `extractByText`. -/
def extractByText (lib : Lib) (m : JSONMail) : String × Bool :=
  let t := (lib.ParseMediaType (m.Header.Get "Content-Type")).1
  if ToLower t = "text/html" then
    match lib.HtmlParse m.Body with
    | .error _ => (m.Body, false)
    | .ok n => (getNodeText n, true)
  else
    (m.Body, false)

mutual
/-- Number of nodes of a tree (the measure of the queue loop). -/
def JSONMail.size : JSONMail → Nat
  | ⟨_, _, _, _, _, cs⟩ => 1 + JSONMail.sizeList cs
/-- Number of nodes of a forest. -/
def JSONMail.sizeList : List JSONMail → Nat
  | [] => 0
  | c :: cs => c.size + JSONMail.sizeList cs
end

/-- The body of the queue loop of `FindTextBody`: every child of every message of
`qp` is appended to `q` and counted in `n`. -/
def appendChildren (q : List JSONMail) (n : Nat) (qp : List JSONMail) : List JSONMail × Nat :=
  qp.foldl (fun s msg => msg.Children.foldl (fun s cld => (s.1 ++ [cld], s.2 + 1)) s) (q, n)

/-! The next lemmas give the termination of the queue loop: each round replaces
the window by the children of its nodes, a forest with fewer nodes. -/

theorem appendOne_foldl (cs : List JSONMail) (s : List JSONMail × Nat) :
    cs.foldl (fun s cld => (s.1 ++ [cld], s.2 + 1)) s = (s.1 ++ cs, s.2 + cs.length) := by
  induction cs generalizing s with
  | nil => simp
  | cons c cs ih => simp [ih, Nat.add_comm, Nat.add_left_comm]

theorem appendChildren_eq (q : List JSONMail) (n : Nat) (qp : List JSONMail) :
    appendChildren q n qp
      = (q ++ qp.flatMap JSONMail.Children, n + (qp.flatMap JSONMail.Children).length) := by
  unfold appendChildren
  induction qp generalizing q n with
  | nil => simp
  | cons m qp ih =>
    simp only [List.foldl_cons, appendOne_foldl]
    have h := ih (q ++ m.Children) (n + m.Children.length)
    simp only [appendOne_foldl] at h
    rw [h]
    simp [Nat.add_assoc]

theorem sizeList_append (a b : List JSONMail) :
    JSONMail.sizeList (a ++ b) = JSONMail.sizeList a + JSONMail.sizeList b := by
  induction a with
  | nil => simp [JSONMail.sizeList]
  | cons x a ih => simp [JSONMail.sizeList, ih, Nat.add_assoc]

theorem size_eq (m : JSONMail) : m.size = 1 + JSONMail.sizeList m.Children := by
  cases m
  simp [JSONMail.size]

theorem sizeList_children_lt (qp : List JSONMail) (h : qp.length ≠ 0) :
    JSONMail.sizeList (qp.flatMap JSONMail.Children) < JSONMail.sizeList qp := by
  induction qp with
  | nil => simp at h
  | cons m qp ih =>
    simp only [List.flatMap_cons, sizeList_append, JSONMail.sizeList, size_eq m]
    by_cases hq : qp.length = 0
    · have : qp = [] := List.length_eq_zero.mp hq
      subst this
      simp [JSONMail.sizeList]
    · have := ih hq
      omega

theorem queue_step_lt (q qp : List JSONMail) (h : qp.length ≠ 0) :
    JSONMail.sizeList
        ((appendChildren q 0 qp).1.drop
          ((appendChildren q 0 qp).1.length - (appendChildren q 0 qp).2))
      < JSONMail.sizeList qp := by
  rw [appendChildren_eq]
  simp only [Nat.zero_add, List.length_append, Nat.add_sub_cancel]
  rw [List.drop_left]
  exact sizeList_children_lt qp h

/-- The queue loop of `FindTextBody` (lines 46 to 53), entered with queue `q` and
window `qp`: `for ...; len(qp) != 0; qp, n = q[len(q)-n:], 0`. -/
def queueLoop (q qp : List JSONMail) : List JSONMail :=
  if _ : qp.length ≠ 0 then
    let s := appendChildren q 0 qp
    queueLoop s.1 (s.1.drop (s.1.length - s.2))
  else
    q
termination_by JSONMail.sizeList qp
decreasing_by exact queue_step_lt q qp (by assumption)

/-- The scan `for _, p := range q` of `FindTextBody` (lines 55 to 69): the pair
`(text, html)` after the loop, started from `(text, html) = s`. -/
def scanQueue (lib : Lib) (s : Option JSONMail × Option JSONMail) (q : List JSONMail) :
    Option JSONMail × Option JSONMail :=
  q.foldl
    (fun s p =>
      if !p.IsMultipart && p.IsText && p.Header.Get "Content-Disposition" == "" then
        let ct := (lib.ParseMediaType (p.Header.Get "Content-Type")).1
        if ToLower ct = "text/plain" then
          (if s.1.isNone then some p else s.1, s.2)
        else if ToLower ct = "text/html" then
          (s.1, if s.2.isNone then some p else s.2)
        else s
      else s)
    s

/-- The error of line 79. -/
def errNotFound : String := "could not find valid text part"

/-- Source: `(*JSONMail).FindTextBody`; the result is `(body, convertedFromHTML, err)`. -/
def FindTextBody (lib : Lib) (m : JSONMail) : String × Bool × GoError :=
  if !m.IsMultipart then
    if m.IsText then
      ((extractByText lib m).1, (extractByText lib m).2, none)
    else
      ("", false, none)
  else
    let q := queueLoop [m] [m]
    match scanQueue lib (none, none) q with
    | (some text, _) => ((extractByText lib text).1, (extractByText lib text).2, none)
    | (none, some html) => ((extractByText lib html).1, (extractByText lib html).2, none)
    | (none, none) => ("", false, some errNotFound)

/-! ## MIME tree builder -/

/-- The conversion `string(bytes)`: one character per byte. -/
def asString (bs : List UInt8) : String :=
  String.mk (bs.map (fun b => Char.ofNat b.toNat))

/-- The alphabet of `base64.StdEncoding`. -/
def encodeStd : List Char :=
  "ABCDEFGHIJKLMNOPQRSTUVWXYZabcdefghijklmnopqrstuvwxyz0123456789+/".toList

/-- The character of a 6 bit value in `base64.StdEncoding`. -/
def sextetChar (v : Nat) : Char :=
  encodeStd.getD v 'A'

/-- What `StdEncoding.Encode` produces for one full group of three bytes. -/
def encodeGroup (b0 b1 b2 : UInt8) : List Char :=
  let v := b0.toNat * 65536 + b1.toNat * 256 + b2.toNat
  [sextetChar (v / 262144 % 64), sextetChar (v / 4096 % 64), sextetChar (v / 64 % 64),
    sextetChar (v % 64)]

/-- What `StdEncoding.Encode` produces for a sequence of full groups. -/
def encodeGroups : List UInt8 → List Char
  | b0 :: b1 :: b2 :: rest => encodeGroup b0 b1 b2 ++ encodeGroups rest
  | _ => []

/-- What `StdEncoding.Encode` produces for a last group of one or two bytes,
padded with `=`. -/
def encodeTail : List UInt8 → List Char
  | [b0] =>
    let v := b0.toNat * 65536
    [sextetChar (v / 262144 % 64), sextetChar (v / 4096 % 64), '=', '=']
  | [b0, b1] =>
    let v := b0.toNat * 65536 + b1.toNat * 256
    [sextetChar (v / 262144 % 64), sextetChar (v / 4096 % 64), sextetChar (v / 64 % 64), '=']
  | _ => []

/-- The stream encoder returned by `base64.NewEncoder(base64.StdEncoding, b)`:
`buf` holds the input bytes of a group that is not yet complete (fewer than
three), `out` is what has been written to the underlying buffer `b` so far. -/
structure Encoder where
  buf : List UInt8
  out : String

/-- The method `Write` of the stream encoder: the pending bytes and `p` are
encoded in full groups of three; the one or two bytes left over stay in `buf`. -/
def Encoder.Write (e : Encoder) (p : List UInt8) : Encoder :=
  let all := e.buf ++ p
  let n := all.length / 3 * 3
  { buf := all.drop n, out := e.out ++ String.mk (encodeGroups (all.take n)) }

/-- The method `Close` of the stream encoder, which flushes the group that is not
complete. `parseMessage` does not call it. -/
def Encoder.Close (e : Encoder) : Encoder :=
  { buf := [], out := e.out ++ String.mk (encodeTail e.buf) }

/-- The call `io.Copy(b, r)` into a `bytes.Buffer` holding `b`: the contents of
the buffer afterwards and the error returned. -/
def copyToBuffer (b : String) (r : Reader) : String × GoError :=
  (r.chunks.foldl (fun b p => b ++ asString p) b, r.err)

/-- The call `io.Copy(e, r)` into a stream encoder: the encoder afterwards and
the error returned. -/
def copyToEncoder (e : Encoder) (r : Reader) : Encoder × GoError :=
  (r.chunks.foldl Encoder.Write e, r.err)

/-- Source: `getReader`. A `nil` reader is `none`. -/
def getReader (lib : Lib) (r : Reader) (h : MIMEHeader) : Option Reader × GoError :=
  match lib.TransferEncodingDecoder r (h.Get "Content-Transfer-Encoding") with
  | .error e => (none, some e)
  | .ok r =>
    let ct := h.Get "Content-Type"
    if ct.length > 5 && ToLower (ct.take 5) == "text/" then
      match lib.CharsetNewReader r ct with
      | .error e => (some r, some e)
      | .ok r2 => (some r2, none)
    else
      (some r, none)

/-- The header copy of `parseMessage` (lines 128 to 134). -/
def copyHeader (lib : Lib) (header : MIMEHeader) : MIMEHeader :=
  header.foldl (fun acc kv => acc.set kv.1 (kv.2.map lib.DecodeRFC2047)) []

/-- The message of the error of line 170. -/
def errBoundaryMissing (contentType : String) : String :=
  "invalid multiparted Content-Type(boundary missing): " ++ contentType

mutual
/-- Source: `parseMessage`. The result is the parent, with the node built for
this message appended to its `Children`, and the error returned. -/
def parseMessage (lib : Lib) (parent : JSONMail) (body : Reader) (header : MIMEHeader)
    (depth : Nat) : JSONMail × GoError :=
  match body with
  | .mk chunks rerr split =>
    let contentType := header.Get "Content-Type"
    let jsm : JSONMail :=
      { Header := copyHeader lib header, IsText := false, Body := "",
        IsMultipart := decide (contentType.length > 10)
          && ToLower (contentType.take 10) == "multipart/",
        Error := "", Children := [] }
    let res : JSONMail × GoError :=
      if !jsm.IsMultipart then
        match getReader lib (.mk chunks rerr split) header with
        | (none, some e) => ({ jsm with Error := e }, some e)
        | (none, none) =>
          -- not reached: getReader returns a reader whenever it returns no error
          ({ jsm with Error := "nil reader" }, some "nil reader")
        | (some r, err) =>
          let jsm := match err with
            | some e => { jsm with Error := e }
            | none => jsm
          let jsm := { jsm with
            IsText := decide (contentType.length > 5) && ToLower (contentType.take 5) == "text/" }
          let cp : String × GoError :=
            if jsm.IsText then copyToBuffer "" r
            else ((copyToEncoder { buf := [], out := "" } r).1.out,
              (copyToEncoder { buf := [], out := "" } r).2)
          match cp.2 with
          | some e => ({ jsm with Error := e }, some e)
          | none => ({ jsm with Body := cp.1 }, none)
      else
        match lib.ParseMediaType contentType with
        | (_, _, some e) => ({ jsm with Error := e }, some e)
        | (_, params, none) =>
          match params.lookup "boundary" with
          | none =>
            ({ jsm with Error := errBoundaryMissing contentType },
              some (errBoundaryMissing contentType))
          | some boundary =>
            match parseMessage.parts lib jsm (split boundary) depth with
            | (jsm, NextErr.EOF) => (jsm, none)
            | (jsm, NextErr.other e) => ({ jsm with Error := e }, some e)
    ({ parent with Children := parent.Children ++ [res.1] }, res.2)
/-- The loop `for p, err = mpr.NextPart(); err == nil; p, err = mpr.NextPart()` of
`parseMessage`: the node `jsm` after the loop and the error that ended it. The
error of a child is logged and dropped. -/
def parseMessage.parts (lib : Lib) (jsm : JSONMail) (ps : Parts) (depth : Nat) :
    JSONMail × NextErr :=
  match ps with
  | .EOF => (jsm, NextErr.EOF)
  | .fail msg => (jsm, NextErr.other msg)
  | .part h b rest =>
    parseMessage.parts lib (parseMessage lib jsm b h (depth + 1)).1 rest depth
end

/-- Source: `Parse`. The outer `none` is the run-time panic of `Children[0]` on an
empty slice. -/
def Parse (lib : Lib) (msg : Message) : Option (Option JSONMail × GoError) :=
  let r := parseMessage lib JSONMail.zero msg.Body msg.Header 0
  match r.2 with
  | some e => some (none, some e)
  | none =>
    match r.1.Children with
    | c :: _ => some (some c, none)
    | [] => none

/-! ## Notions used to state the properties -/

/-- A candidate of the selector: a node that is not multipart, is text, and has
an empty `Content-Disposition`. -/
def isCandidate (p : JSONMail) : Bool :=
  !p.IsMultipart && p.IsText && p.Header.Get "Content-Disposition" == ""

/-- The media type of a node, parameters dropped, in lower case. -/
def mediaType (lib : Lib) (p : JSONMail) : String :=
  ToLower (lib.ParseMediaType (p.Header.Get "Content-Type")).1

/-- A `text/plain` candidate. -/
def isPlainCandidate (lib : Lib) (p : JSONMail) : Bool :=
  isCandidate p && mediaType lib p == "text/plain"

/-- A `text/html` candidate. -/
def isHtmlCandidate (lib : Lib) (p : JSONMail) : Bool :=
  isCandidate p && mediaType lib p == "text/html"

mutual
/-- The nodes of the subtree of a node, the node itself first (document order). -/
def JSONMail.nodes : JSONMail → List JSONMail
  | ⟨h, t, b, mp, e, cs⟩ => ⟨h, t, b, mp, e, cs⟩ :: JSONMail.nodesList cs
/-- The nodes of the subtrees of a forest. -/
def JSONMail.nodesList : List JSONMail → List JSONMail
  | [] => []
  | c :: cs => c.nodes ++ JSONMail.nodesList cs
end

mutual
/-- The number of levels of a tree. -/
def JSONMail.height : JSONMail → Nat
  | ⟨_, _, _, _, _, cs⟩ => 1 + JSONMail.heightList cs
/-- The number of levels of a forest. -/
def JSONMail.heightList : List JSONMail → Nat
  | [] => 0
  | c :: cs => max c.height (JSONMail.heightList cs)
end

/-- The nodes at depth `d` below a node, left to right; depth 0 is the node itself. -/
def atDepth : Nat → JSONMail → List JSONMail
  | 0, m => [m]
  | d + 1, m => m.Children.flatMap (atDepth d)

/-- The nodes of a tree in breadth-first level order: level after level, each
level left to right. -/
def levelOrder (m : JSONMail) : List JSONMail :=
  (List.range m.height).flatMap (fun d => atDepth d m)

/-- The levels of a forest, one after the other, each left to right. -/
def levelsOf (qp : List JSONMail) : List JSONMail :=
  (List.range (JSONMail.heightList qp)).flatMap (fun d => qp.flatMap (atDepth d))

/-- The node `c` is the first node with property `p` in level order: it lies at
position `i` of depth `d`, no node of a smaller depth has `p`, and no node to its
left at depth `d` has `p`. -/
def FirstInLevelOrder (p : JSONMail → Bool) (root c : JSONMail) : Prop :=
  ∃ d i : Nat, (atDepth d root)[i]? = some c ∧ p c = true
    ∧ (∀ d', d' < d → ∀ x ∈ atDepth d' root, p x = false)
    ∧ (∀ j, j < i → ∀ x, (atDepth d root)[j]? = some x → p x = false)

/-! ## Sample collaborators and trees -/

/-- The document `go.net/html` builds for `<p>Hi <script>evil()</script>there</p>`. -/
def sampleDocument : Node :=
  ⟨.DocumentNode, "", [⟨.ElementNode, "html", [⟨.ElementNode, "head", []⟩,
    ⟨.ElementNode, "body", [⟨.ElementNode, "p", [⟨.TextNode, "Hi ", []⟩,
      ⟨.ElementNode, "script", [⟨.TextNode, "evil()", []⟩]⟩, ⟨.TextNode, "there", []⟩]⟩]⟩]⟩]⟩

/-- A table of collaborator results, enough for the sample inputs below. -/
def tableLib : Lib where
  ParseMediaType := fun s =>
    if s = "text/plain" then ("text/plain", [], none)
    else if s = "text/html" then ("text/html", [], none)
    else if s = "multipart/mixed; boundary=b" then ("multipart/mixed", [("boundary", "b")], none)
    else if s = "multipart/mixed" then ("multipart/mixed", [], none)
    else if s = "application/octet-stream" then ("application/octet-stream", [], none)
    else ("", [], some "mime: no media type")
  HtmlParse := fun s =>
    if s = "<p>Hi <script>evil()</script>there</p>" then .ok sampleDocument
    else .error "html: cannot parse"
  DecodeRFC2047 := fun s => s
  TransferEncodingDecoder := fun r enc =>
    if enc = "" then .ok r else .error "unsupported transfer encoding"
  CharsetNewReader := fun r _ => .ok r

/-- A text leaf with the given `Content-Type` and body. -/
def textLeaf (ct body : String) : JSONMail :=
  { Header := [("Content-Type", [ct])], IsText := true, Body := body, IsMultipart := false,
    Error := "", Children := [] }

/-- A text leaf that carries a `Content-Disposition`. -/
def attachedLeaf (ct body : String) : JSONMail :=
  { Header := [("Content-Type", [ct]), ("Content-Disposition", ["attachment"])], IsText := true,
    Body := body, IsMultipart := false, Error := "", Children := [] }

/-- A binary leaf. -/
def binaryLeaf (body : String) : JSONMail :=
  { Header := [("Content-Type", ["application/octet-stream"])], IsText := false, Body := body,
    IsMultipart := false, Error := "", Children := [] }

/-- A multipart node with the given children. -/
def multipartNode (children : List JSONMail) : JSONMail :=
  { Header := [("Content-Type", ["multipart/mixed; boundary=b"])], IsText := false, Body := "",
    IsMultipart := true, Error := "", Children := children }

/-- The part `FindTextBody` extracts for a multipart root (lines 70 to 77):
`text` when it is set, else `html`. -/
def selectedPart (lib : Lib) (m : JSONMail) : Option JSONMail :=
  match scanQueue lib (none, none) (queueLoop [m] [m]) with
  | (some text, _) => some text
  | (none, html) => html

/-- A tree with a text/plain leaf at depth 3 that comes first in document order,
and a text/plain leaf at depth 1 after it. -/
def nestedTree : JSONMail :=
  multipartNode
    [multipartNode [multipartNode [textLeaf "text/plain" "deep"]], textLeaf "text/plain" "shallow"]

/-! ## Notions for the flattening of an HTML document -/

/-- A `script` or `style` element. -/
def isSkipped (n : Node) : Bool :=
  n.Kind = NodeType.ElementNode && (n.Data == "script" || n.Data == "style")

mutual
/-- The nodes of the subtree of a node in document order, each with the chain of
its ancestors; `anc` is the chain of the node itself. -/
def Node.walk (anc : List Node) : Node → List (List Node × Node)
  | ⟨k, d, cs⟩ => (anc, ⟨k, d, cs⟩) :: Node.walkList (anc ++ [⟨k, d, cs⟩]) cs
/-- The nodes of the subtrees of siblings in document order. -/
def Node.walkList (anc : List Node) : List Node → List (List Node × Node)
  | [] => []
  | c :: cs => c.walk anc ++ Node.walkList anc cs
end

/-- The nodes of a document in document order (depth first, left to right), each
with its ancestors below the root, outermost first. -/
def documentOrder (root : Node) : List (List Node × Node) :=
  ([], root) :: Node.walkList [] root.Children

/-- Concatenation of strings in order. -/
def concat : List String → String
  | [] => ""
  | s :: ss => s ++ concat ss

/-- The text nodes that have no `script` or `style` element among their ancestors
below the root. -/
def isVisibleText (p : List Node × Node) : Bool :=
  p.2.Kind = NodeType.TextNode && p.1.all (fun a => !isSkipped a)

/-- The flattening as the specification words it: the `Data` of the visible text
nodes, concatenated in document order. -/
def visibleText (root : Node) : String :=
  concat (((documentOrder root).filter isVisibleText).map (fun p => p.2.Data))

mutual
/-- Every text node of the subtree is a leaf. -/
def textLeaves : Node → Bool
  | ⟨k, _, cs⟩ => (k != NodeType.TextNode || cs.isEmpty) && textLeavesList cs
/-- Every text node of the subtrees of a forest is a leaf. -/
def textLeavesList : List Node → Bool
  | [] => true
  | c :: cs => textLeaves c && textLeavesList cs
end

mutual
/-- Number of nodes of a document. -/
def Node.size : Node → Nat
  | ⟨_, _, cs⟩ => 1 + Node.sizeList cs
/-- Number of nodes of a forest of documents. -/
def Node.sizeList : List Node → Nat
  | [] => 0
  | c :: cs => c.size + Node.sizeList cs
end

/-! ## Notions for the tree builder -/

/-- The node `parseMessage` builds for a message: the child it appends to the
parent (the same for every parent). -/
def builtNode (lib : Lib) (body : Reader) (header : MIMEHeader) (depth : Nat) : JSONMail :=
  match (parseMessage lib JSONMail.zero body header depth).1.Children with
  | [n] => n
  | _ => JSONMail.zero

/-- The sequence of `NextPart` results that yields the given parts and then ends
with `e`. -/
def Parts.ofList : List (MIMEHeader × Reader) → Parts → Parts
  | [], e => e
  | p :: ps, e => Parts.part p.1 p.2 (Parts.ofList ps e)

/-- The parts of a sequence of `NextPart` results. -/
def Parts.toList : Parts → List (MIMEHeader × Reader)
  | .EOF => []
  | .fail _ => []
  | .part h b rest => (h, b) :: rest.toList

/-- The error that ends a sequence of `NextPart` results. -/
def Parts.ending : Parts → NextErr
  | .EOF => NextErr.EOF
  | .fail msg => NextErr.other msg
  | .part _ _ rest => rest.ending

/-- The classification of line 137. -/
def isMultipartType (ct : String) : Bool :=
  decide (ct.length > 10) && ToLower (ct.take 10) == "multipart/"

/-- The classification of line 148. -/
def isTextType (ct : String) : Bool :=
  decide (ct.length > 5) && ToLower (ct.take 5) == "text/"

/-- A reader that delivers the given bytes in one chunk and then `io.EOF`. -/
def bytesReader (bs : List UInt8) : Reader :=
  Reader.mk [bs] none (fun _ => Parts.EOF)

/-- Three parts; building the second one fails (its transfer encoding is unknown). -/
def sampleParts : List (MIMEHeader × Reader) :=
  [([("Content-Type", ["text/plain"])], bytesReader [104, 105]),
    ([("Content-Type", ["text/plain"]), ("Content-Transfer-Encoding", ["x-unknown"])],
      bytesReader [66]),
    ([("Content-Type", ["application/octet-stream"])], bytesReader [97, 98, 99])]

/-- A multipart body whose splitter yields `sampleParts` and then `io.EOF`. -/
def sampleMultipart : Reader :=
  Reader.mk [] none (fun _ => Parts.ofList sampleParts Parts.EOF)

/-- The header of the sample multipart message. -/
def sampleMultipartHeader : MIMEHeader :=
  [("Content-Type", ["multipart/mixed; boundary=b"])]

/-! ## Notions for the base64 body of a leaf -/

/-- The 6 bit value of a character of `base64.StdEncoding`, if it is one. -/
def sextetOf (c : Char) : Option Nat :=
  if encodeStd.indexOf c < 64 then some (encodeStd.indexOf c) else none

/-- Base64 decoding (RFC 4648, standard alphabet, with padding) of a sequence of
characters. -/
def base64DecodeChars : List Char → Option (List UInt8)
  | [] => some []
  | c0 :: c1 :: c2 :: c3 :: rest =>
    if rest.isEmpty && c3 = '=' then
      if c2 = '=' then
        match sextetOf c0, sextetOf c1 with
        | some s0, some s1 => some [UInt8.ofNat ((s0 * 262144 + s1 * 4096) / 65536)]
        | _, _ => none
      else
        match sextetOf c0, sextetOf c1, sextetOf c2 with
        | some s0, some s1, some s2 =>
          some [UInt8.ofNat ((s0 * 262144 + s1 * 4096 + s2 * 64) / 65536),
            UInt8.ofNat ((s0 * 262144 + s1 * 4096 + s2 * 64) / 256 % 256)]
        | _, _, _ => none
    else
      match sextetOf c0, sextetOf c1, sextetOf c2, sextetOf c3, base64DecodeChars rest with
      | some s0, some s1, some s2, some s3, some bs =>
        some (UInt8.ofNat ((s0 * 262144 + s1 * 4096 + s2 * 64 + s3) / 65536)
          :: UInt8.ofNat ((s0 * 262144 + s1 * 4096 + s2 * 64 + s3) / 256 % 256)
          :: UInt8.ofNat ((s0 * 262144 + s1 * 4096 + s2 * 64 + s3) % 256) :: bs)
      | _, _, _, _, _ => none
  | _ => none

/-- Base64 decoding of a string. -/
def base64Decode (s : String) : Option (List UInt8) :=
  base64DecodeChars s.data

/-- The bytes a reader delivers, all chunks together. -/
def Reader.payload (r : Reader) : List UInt8 :=
  r.chunks.flatten

/-- A leaf part with one byte of binary content: the header and the body. -/
def oneByteHeader : MIMEHeader :=
  [("Content-Type", ["application/octet-stream"])]

/-- The state of the stream encoder after the bytes `data` have been written:
the full groups are encoded, the rest is pending. -/
def Encoder.after (data : List UInt8) : Encoder :=
  { buf := data.drop (data.length / 3 * 3),
    out := String.mk (encodeGroups (data.take (data.length / 3 * 3))) }

/-! ## Samples for the error paths of the builder -/

/-- The collaborators of `tableLib`, with a charset converter that rejects every
`Content-Type`. -/
def noCharsetLib : Lib :=
  { tableLib with CharsetNewReader := fun _ _ => .error "charset: unknown charset" }

/-- A multipart body whose splitter yields one text part and then fails. -/
def truncatedMultipart : Reader :=
  Reader.mk [] none (fun _ =>
    Parts.part [("Content-Type", ["text/plain"])] (bytesReader [104, 105])
      (Parts.fail "multipart: NextPart: EOF"))

/-- A reader that delivers one byte and then ends with an error whose message is
empty. -/
def emptyErrorReader : Reader :=
  Reader.mk [[66]] (some "") (fun _ => Parts.EOF)

/-- No collaborator reports an error with an empty message while the node for
this header and body is built: the transfer decoder, the readers it and the
charset converter return, the media type parser and the multipart splitter. -/
def ErrorsNonEmpty (lib : Lib) (body : Reader) (header : MIMEHeader) : Prop :=
  (∀ e, lib.TransferEncodingDecoder body (header.Get "Content-Transfer-Encoding") = .error e
      → e ≠ "")
    ∧ (∀ r, lib.TransferEncodingDecoder body (header.Get "Content-Transfer-Encoding") = .ok r
      → r.err ≠ some ""
        ∧ ∀ r2, lib.CharsetNewReader r (header.Get "Content-Type") = .ok r2 → r2.err ≠ some "")
    ∧ (∀ mt params e, lib.ParseMediaType (header.Get "Content-Type") = (mt, params, some e)
      → e ≠ "")
    ∧ (∀ boundary, (body.split boundary).ending ≠ NextErr.other "")

/-! ## The queue of `FindTextBody` is the level order -/

theorem heightList_append (a b : List JSONMail) :
    JSONMail.heightList (a ++ b) = max (JSONMail.heightList a) (JSONMail.heightList b) := by
  induction a with
  | nil => simp [JSONMail.heightList]
  | cons x a ih => simp [JSONMail.heightList, ih, Nat.max_assoc]

theorem height_eq (m : JSONMail) : m.height = 1 + JSONMail.heightList m.Children := by
  cases m
  simp [JSONMail.height]

theorem heightList_children (qp : List JSONMail) (h : qp ≠ []) :
    JSONMail.heightList qp = JSONMail.heightList (qp.flatMap JSONMail.Children) + 1 := by
  induction qp with
  | nil => exact absurd rfl h
  | cons m qp ih =>
    simp only [List.flatMap_cons, heightList_append, JSONMail.heightList, height_eq m]
    by_cases hq : qp = []
    · subst hq
      simp [JSONMail.heightList]
      omega
    · have := ih hq
      omega

theorem flatMap_atDepth_succ (d : Nat) (qp : List JSONMail) :
    qp.flatMap (atDepth (d + 1)) = (qp.flatMap JSONMail.Children).flatMap (atDepth d) := by
  induction qp with
  | nil => simp
  | cons m qp ih =>
    rw [List.flatMap_cons, List.flatMap_cons, List.flatMap_append, ih]
    rfl

theorem flatMap_atDepth_zero (qp : List JSONMail) : qp.flatMap (atDepth 0) = qp := by
  induction qp with
  | nil => simp
  | cons m qp ih => simp [atDepth, ih]

theorem levelsOf_nil : levelsOf [] = [] := by
  simp [levelsOf, JSONMail.heightList]

theorem levelsOf_step (qp : List JSONMail) (h : qp ≠ []) :
    levelsOf qp = qp ++ levelsOf (qp.flatMap JSONMail.Children) := by
  unfold levelsOf
  rw [heightList_children qp h, List.range_succ_eq_map]
  simp only [List.flatMap_cons, flatMap_atDepth_zero, List.flatMap_map, flatMap_atDepth_succ]

theorem queueLoop_eq (q qp : List JSONMail) : queueLoop (q ++ qp) qp = q ++ levelsOf qp := by
  generalize hn : JSONMail.sizeList qp = n
  induction n using Nat.strong_induction_on generalizing q qp with
  | _ n ih =>
    unfold queueLoop
    by_cases hq : qp.length ≠ 0
    · have hne : qp ≠ [] := fun h => hq (by simp [h])
      rw [dif_pos hq, appendChildren_eq]
      simp only [Nat.zero_add]
      have e : (q ++ qp ++ qp.flatMap JSONMail.Children).length
          - (qp.flatMap JSONMail.Children).length = (q ++ qp).length := by
        rw [List.length_append (q ++ qp)]
        omega
      rw [e, List.drop_left]
      have hlt := sizeList_children_lt qp hq
      rw [ih _ (hn ▸ hlt) (q ++ qp) _ rfl, levelsOf_step qp hne]
      simp
    · have hnil : qp = [] := by
        cases qp with
        | nil => rfl
        | cons a l => simp at hq
      subst hnil
      simp [levelsOf_nil]

theorem queue_eq_levelOrder (m : JSONMail) : queueLoop [m] [m] = levelOrder m := by
  have h := queueLoop_eq [] [m]
  simp only [List.nil_append] at h
  rw [h]
  simp [levelsOf, levelOrder, JSONMail.heightList]

/-! ## The scan of the queue keeps the first candidates -/

theorem plain_ne_html : ("text/plain" : String) ≠ "text/html" := by decide

theorem scanQueue_eq (lib : Lib) (s : Option JSONMail × Option JSONMail) (q : List JSONMail) :
    scanQueue lib s q
      = (s.1.or (q.find? (isPlainCandidate lib)), s.2.or (q.find? (isHtmlCandidate lib))) := by
  unfold scanQueue
  induction q generalizing s with
  | nil => simp
  | cons p q ih =>
    rw [List.foldl_cons, ih]
    obtain ⟨t, h⟩ := s
    by_cases hc : isCandidate p = true
    · have hc' : (!p.IsMultipart && p.IsText && p.Header.Get "Content-Disposition" == "") = true := hc
      by_cases hp : ToLower (lib.ParseMediaType (p.Header.Get "Content-Type")).1 = "text/plain"
      · have hh : ToLower (lib.ParseMediaType (p.Header.Get "Content-Type")).1 ≠ "text/html" := by
          rw [hp]; exact plain_ne_html
        cases t <;> simp [hc', hp, isPlainCandidate, isHtmlCandidate, mediaType, hc, plain_ne_html]
      · by_cases hh : ToLower (lib.ParseMediaType (p.Header.Get "Content-Type")).1 = "text/html"
        · cases h <;> simp [hc', hp, hh, isPlainCandidate, isHtmlCandidate, mediaType, hc,
            plain_ne_html.symm]
        · simp [hc', hp, hh, isPlainCandidate, isHtmlCandidate, mediaType, hc]
    · have hc' : (!p.IsMultipart && p.IsText && p.Header.Get "Content-Disposition" == "") = false := by
        simpa [isCandidate] using hc
      have hc2 : isCandidate p = false := by simpa using hc
      simp [hc', isPlainCandidate, isHtmlCandidate, hc2]

theorem extractByText_other (lib : Lib) (m : JSONMail) (h : mediaType lib m ≠ "text/html") :
    extractByText lib m = (m.Body, false) := by
  unfold extractByText
  have h' : ¬ ToLower (lib.ParseMediaType (m.Header.Get "Content-Type")).1 = "text/html" := h
  simp only
  rw [if_neg h']

theorem extractByText_plain (lib : Lib) (m : JSONMail) (h : isPlainCandidate lib m = true) :
    extractByText lib m = (m.Body, false) := by
  apply extractByText_other
  simp only [isPlainCandidate, Bool.and_eq_true, beq_iff_eq] at h
  rw [h.2]
  exact plain_ne_html

/-- For a multipart root, `FindTextBody` extracts the first `text/plain` candidate
of the level order, else the first `text/html` candidate, else fails. -/
theorem FindTextBody_multipart (lib : Lib) (m : JSONMail) (h : m.IsMultipart = true) :
    FindTextBody lib m =
      match (levelOrder m).find? (isPlainCandidate lib), (levelOrder m).find? (isHtmlCandidate lib) with
      | some text, _ => (text.Body, false, none)
      | none, some html => ((extractByText lib html).1, (extractByText lib html).2, none)
      | none, none => ("", false, some errNotFound) := by
  unfold FindTextBody
  simp only [h, Bool.not_true, Bool.false_eq_true, ↓reduceIte]
  rw [queue_eq_levelOrder, scanQueue_eq]
  simp only [Option.none_or]
  cases hp : (levelOrder m).find? (isPlainCandidate lib) with
  | some text =>
    have := List.find?_some hp
    simp [extractByText_plain lib text this]
  | none =>
    cases hh : (levelOrder m).find? (isHtmlCandidate lib) <;> simp

/-! ## Subtree, depth and level order -/

theorem nodes_eq (m : JSONMail) : m.nodes = m :: JSONMail.nodesList m.Children := by
  cases m
  simp [JSONMail.nodes]

theorem mem_nodesList (n : JSONMail) (cs : List JSONMail) :
    n ∈ JSONMail.nodesList cs ↔ ∃ c ∈ cs, n ∈ c.nodes := by
  induction cs with
  | nil => simp [JSONMail.nodesList]
  | cons c cs ih => simp [JSONMail.nodesList, ih]

theorem mem_nodes (n m : JSONMail) :
    n ∈ m.nodes ↔ n = m ∨ ∃ c ∈ m.Children, n ∈ c.nodes := by
  rw [nodes_eq, List.mem_cons, mem_nodesList]

theorem size_le_sizeList (c : JSONMail) (cs : List JSONMail) (h : c ∈ cs) :
    c.size ≤ JSONMail.sizeList cs := by
  induction cs with
  | nil => simp at h
  | cons x cs ih =>
    simp only [JSONMail.sizeList]
    rcases List.mem_cons.mp h with rfl | h'
    · omega
    · have := ih h'
      omega

theorem height_le_heightList (c : JSONMail) (cs : List JSONMail) (h : c ∈ cs) :
    c.height ≤ JSONMail.heightList cs := by
  induction cs with
  | nil => simp at h
  | cons x cs ih =>
    simp only [JSONMail.heightList]
    rcases List.mem_cons.mp h with rfl | h'
    · omega
    · have := ih h'
      omega

theorem atDepth_mem_nodes (d : Nat) (n m : JSONMail) (h : n ∈ atDepth d m) : n ∈ m.nodes := by
  induction d generalizing m with
  | zero =>
    simp only [atDepth, List.mem_singleton] at h
    rw [mem_nodes]
    exact Or.inl h
  | succ d ih =>
    simp only [atDepth, List.mem_flatMap] at h
    obtain ⟨c, hc, hn⟩ := h
    rw [mem_nodes]
    exact Or.inr ⟨c, hc, ih c hn⟩

theorem mem_nodes_atDepth (n m : JSONMail) (h : n ∈ m.nodes) : ∃ d, n ∈ atDepth d m := by
  generalize hs : m.size = k
  induction k using Nat.strong_induction_on generalizing m with
  | _ k ih =>
    rcases (mem_nodes n m).mp h with rfl | ⟨c, hc, hn⟩
    · exact ⟨0, by simp [atDepth]⟩
    · have hlt : c.size < k := by
        have := size_le_sizeList c m.Children hc
        rw [← hs, size_eq m]
        omega
      obtain ⟨d, hd⟩ := ih c.size hlt c hn rfl
      exact ⟨d + 1, by simp only [atDepth, List.mem_flatMap]; exact ⟨c, hc, hd⟩⟩

theorem atDepth_eq_nil (d : Nat) (m : JSONMail) (h : m.height ≤ d) : atDepth d m = [] := by
  induction d generalizing m with
  | zero =>
    rw [height_eq] at h
    omega
  | succ d ih =>
    simp only [atDepth, List.flatMap_eq_nil_iff]
    intro c hc
    apply ih
    have := height_le_heightList c m.Children hc
    rw [height_eq] at h
    omega

theorem mem_levelOrder (n m : JSONMail) : n ∈ levelOrder m ↔ ∃ d, n ∈ atDepth d m := by
  unfold levelOrder
  simp only [List.mem_flatMap, List.mem_range]
  constructor
  · rintro ⟨d, _, hd⟩
    exact ⟨d, hd⟩
  · rintro ⟨d, hd⟩
    refine ⟨d, ?_, hd⟩
    by_contra hge
    rw [atDepth_eq_nil d m (by omega)] at hd
    simp at hd

/-- The queue of `FindTextBody` holds exactly the nodes of the subtree. -/
theorem mem_levelOrder_iff_mem_nodes (n m : JSONMail) : n ∈ levelOrder m ↔ n ∈ m.nodes := by
  rw [mem_levelOrder]
  constructor
  · rintro ⟨d, hd⟩
    exact atDepth_mem_nodes d n m hd
  · exact mem_nodes_atDepth n m

theorem find?_of_index {α : Type} (p : α → Bool) (l : List α) (i : Nat) (c : α)
    (hi : l[i]? = some c) (hp : p c = true)
    (hlt : ∀ j, j < i → ∀ x, l[j]? = some x → p x = false) : l.find? p = some c := by
  induction l generalizing i with
  | nil => simp at hi
  | cons a l ih =>
    cases i with
    | zero =>
      simp only [List.getElem?_cons_zero, Option.some.injEq] at hi
      subst hi
      simp [List.find?_cons, hp]
    | succ i =>
      have ha : p a = false := hlt 0 (Nat.succ_pos i) a (by simp)
      simp only [List.find?_cons, ha]
      apply ih i (by simpa using hi)
      intro j hj x hx
      exact hlt (j + 1) (by omega) x (by simpa using hx)

theorem index_of_find? {α : Type} (p : α → Bool) (l : List α) (c : α)
    (h : l.find? p = some c) :
    ∃ i : Nat, l[i]? = some c ∧ ∀ j, j < i → ∀ x, l[j]? = some x → p x = false := by
  induction l with
  | nil => simp at h
  | cons a l ih =>
    by_cases ha : p a = true
    · simp only [List.find?_cons, ha, Option.some.injEq] at h
      subst h
      exact ⟨0, by simp, by intro j hj; omega⟩
    · have ha' : p a = false := by simpa using ha
      simp only [List.find?_cons, ha'] at h
      obtain ⟨i, hi, hlt⟩ := ih h
      refine ⟨i + 1, by simpa using hi, ?_⟩
      intro j hj x hx
      cases j with
      | zero =>
        simp only [List.getElem?_cons_zero, Option.some.injEq] at hx
        subst hx
        exact ha'
      | succ j => exact hlt j (by omega) x (by simpa using hx)

theorem find?_levels_none (p : JSONMail → Bool) (f : Nat → List JSONMail) (d : Nat)
    (h : ∀ d', d' < d → ∀ x ∈ f d', p x = false) :
    ((List.range d).flatMap f).find? p = none := by
  rw [List.find?_eq_none]
  intro x hx
  simp only [List.mem_flatMap, List.mem_range] at hx
  obtain ⟨d', hd', hx⟩ := hx
  simp [h d' hd' x hx]

theorem range_split (d H : Nat) (h : d < H) :
    ∃ rest, List.range H = List.range d ++ d :: rest := by
  induction H with
  | zero => omega
  | succ H ih =>
    rw [List.range_succ]
    by_cases hd : d = H
    · subst hd
      exact ⟨[], rfl⟩
    · obtain ⟨rest, hr⟩ := ih (by omega)
      exact ⟨rest ++ [H], by rw [hr]; simp⟩

/-- The first node with `p` in level order is what `find?` returns on the queue. -/
theorem find?_of_first (p : JSONMail → Bool) (root c : JSONMail)
    (h : FirstInLevelOrder p root c) : (levelOrder root).find? p = some c := by
  obtain ⟨d, i, hi, hp, hd, hlt⟩ := h
  have hmem : c ∈ atDepth d root := List.getElem?_mem hi
  have hdH : d < root.height := by
    by_contra hge
    rw [atDepth_eq_nil d root (by omega)] at hmem
    simp at hmem
  obtain ⟨rest, hr⟩ := range_split d root.height hdH
  unfold levelOrder
  rw [hr, List.flatMap_append, List.flatMap_cons, List.find?_append,
    find?_levels_none p _ d hd, List.find?_append, find?_of_index p _ i c hi hp hlt]
  simp

/-- What `find?` returns on the queue is the first node with `p` in level order. -/
theorem first_of_find? (p : JSONMail → Bool) (root c : JSONMail)
    (h : (levelOrder root).find? p = some c) : FirstInLevelOrder p root c := by
  have hp : p c = true := List.find?_some h
  unfold levelOrder at h
  generalize root.height = H at h
  induction H with
  | zero => simp at h
  | succ H ih =>
    rw [List.range_succ, List.flatMap_append, List.find?_append] at h
    cases hf : ((List.range H).flatMap fun d => atDepth d root).find? p with
    | some c' =>
      rw [hf] at h
      simp only [Option.or_some, Option.some.injEq] at h
      subst h
      exact ih hf
    | none =>
      rw [hf] at h
      simp only [Option.none_or, List.flatMap_cons, List.flatMap_nil, List.append_nil] at h
      obtain ⟨i, hi, hlt⟩ := index_of_find? p _ c h
      refine ⟨H, i, hi, hp, ?_, hlt⟩
      intro d' hd' x hx
      rw [List.find?_eq_none] at hf
      have := hf x (by simp only [List.mem_flatMap, List.mem_range]; exact ⟨d', hd', hx⟩)
      simpa using this

/-! ## Properties of the text body selector -/

/-- C1: for a multipart root whose subtree holds a text/plain candidate,
`FindTextBody` returns the body of a text/plain candidate of the subtree,
unchanged, with `convertedFromHTML = false` and a nil error, wherever text/html
candidates lie; when the candidate is the only one, it is its body. -/
theorem FindTextBody_prefers_plain (lib : Lib) (root c0 : JSONMail)
    (hm : root.IsMultipart = true) (hc0 : c0 ∈ root.nodes)
    (hp : isPlainCandidate lib c0 = true) :
    ∃ c ∈ root.nodes, isPlainCandidate lib c = true
      ∧ FindTextBody lib root = (c.Body, false, none)
      ∧ ((∀ c' ∈ root.nodes, isPlainCandidate lib c' = true → c' = c0) → c = c0) := by
  rw [FindTextBody_multipart lib root hm]
  cases hf : (levelOrder root).find? (isPlainCandidate lib) with
  | none =>
    rw [List.find?_eq_none] at hf
    have := hf c0 ((mem_levelOrder_iff_mem_nodes c0 root).mpr hc0)
    simp [hp] at this
  | some c =>
    have hc : c ∈ root.nodes := (mem_levelOrder_iff_mem_nodes c root).mp (List.mem_of_find?_eq_some hf)
    have hpc : isPlainCandidate lib c = true := List.find?_some hf
    exact ⟨c, hc, hpc, rfl, fun h => h c hc hpc⟩

theorem FindTextBody_prefers_plain_witness :
    (multipartNode [textLeaf "text/html" "<b>x</b>", textLeaf "text/plain" "hello"]).IsMultipart
        = true
      ∧ ∃ c ∈ (multipartNode
            [textLeaf "text/html" "<b>x</b>", textLeaf "text/plain" "hello"]).nodes,
          isPlainCandidate tableLib c = true
          ∧ FindTextBody tableLib
              (multipartNode [textLeaf "text/html" "<b>x</b>", textLeaf "text/plain" "hello"])
            = (c.Body, false, none)
          ∧ ((∀ c' ∈ (multipartNode
                [textLeaf "text/html" "<b>x</b>", textLeaf "text/plain" "hello"]).nodes,
              isPlainCandidate tableLib c' = true → c' = textLeaf "text/plain" "hello")
            → c = textLeaf "text/plain" "hello") :=
  ⟨rfl, FindTextBody_prefers_plain tableLib _ (textLeaf "text/plain" "hello") rfl
    (by simp [multipartNode, textLeaf, JSONMail.nodes, JSONMail.nodesList]) (by decide)⟩

theorem FindTextBody_leaf (lib : Lib) (root : JSONMail) (hm : root.IsMultipart = false) :
    FindTextBody lib root =
      if root.IsText then ((extractByText lib root).1, (extractByText lib root).2, none)
      else ("", false, none) := by
  unfold FindTextBody
  simp [hm]

theorem no_candidate_iff (lib : Lib) (n : JSONMail) :
    (isPlainCandidate lib n = false ∧ isHtmlCandidate lib n = false)
      ↔ ¬ (isCandidate n = true
          ∧ (mediaType lib n = "text/plain" ∨ mediaType lib n = "text/html")) := by
  unfold isPlainCandidate isHtmlCandidate
  cases isCandidate n <;> simp

/-- C3: `FindTextBody` returns a non-nil error exactly when the root is multipart
and no node of its subtree is a candidate (not multipart, text, empty
`Content-Disposition`) of media type text/plain or text/html; the result is then
the empty body, `convertedFromHTML = false` and the error "could not find valid
text part". -/
theorem FindTextBody_error_iff (lib : Lib) (root : JSONMail) :
    ((FindTextBody lib root).2.2 ≠ none
        ↔ (root.IsMultipart = true
          ∧ ∀ n ∈ root.nodes, ¬ (isCandidate n = true
              ∧ (mediaType lib n = "text/plain" ∨ mediaType lib n = "text/html"))))
      ∧ ((FindTextBody lib root).2.2 ≠ none
        → FindTextBody lib root = ("", false, some "could not find valid text part")) := by
  cases hm : root.IsMultipart with
  | false =>
    rw [FindTextBody_leaf lib root hm]
    cases root.IsText <;> simp
  | true =>
    rw [FindTextBody_multipart lib root hm]
    cases hp : (levelOrder root).find? (isPlainCandidate lib) with
    | some t =>
      have ht : t ∈ root.nodes :=
        (mem_levelOrder_iff_mem_nodes t root).mp (List.mem_of_find?_eq_some hp)
      have hpt : isPlainCandidate lib t = true := List.find?_some hp
      refine ⟨⟨fun h => absurd rfl h, fun h => ?_⟩, fun h => absurd rfl h⟩
      have := (no_candidate_iff lib t).mpr (h.2 t ht)
      rw [hpt] at this
      exact absurd this.1 (by simp)
    | none =>
      cases hh : (levelOrder root).find? (isHtmlCandidate lib) with
      | some t =>
        have ht : t ∈ root.nodes :=
          (mem_levelOrder_iff_mem_nodes t root).mp (List.mem_of_find?_eq_some hh)
        have hpt : isHtmlCandidate lib t = true := List.find?_some hh
        refine ⟨⟨fun h => absurd rfl h, fun h => ?_⟩, fun h => absurd rfl h⟩
        have := (no_candidate_iff lib t).mpr (h.2 t ht)
        rw [hpt] at this
        exact absurd this.2 (by simp)
      | none =>
        refine ⟨⟨fun _ => ⟨rfl, fun n hn => ?_⟩, fun _ => by simp⟩, fun _ => rfl⟩
        rw [List.find?_eq_none] at hp hh
        have hn' := (mem_levelOrder_iff_mem_nodes n root).mpr hn
        apply (no_candidate_iff lib n).mp
        exact ⟨by simpa using hp n hn', by simpa using hh n hn'⟩

/-- C6: for a root that is not multipart `FindTextBody` returns no error; when
the root is text the result is `extractByText` of the root, whatever its
`Content-Disposition`, its subtype and its children; when it is not text the
result is the empty string with `convertedFromHTML = false`. -/
theorem FindTextBody_not_multipart (lib : Lib) (root : JSONMail)
    (hm : root.IsMultipart = false) :
    (FindTextBody lib root).2.2 = none
      ∧ (root.IsText = true → FindTextBody lib root
          = ((extractByText lib root).1, (extractByText lib root).2, none))
      ∧ (root.IsText = false → FindTextBody lib root = ("", false, none)) := by
  rw [FindTextBody_leaf lib root hm]
  cases root.IsText <;> simp

theorem FindTextBody_not_multipart_witness :
    (attachedLeaf "text/html" "<p>Hi <script>evil()</script>there</p>").IsMultipart = false
      ∧ (FindTextBody tableLib
          (attachedLeaf "text/html" "<p>Hi <script>evil()</script>there</p>")).2.2 = none
      ∧ ((attachedLeaf "text/html" "<p>Hi <script>evil()</script>there</p>").IsText = true
        → FindTextBody tableLib
            (attachedLeaf "text/html" "<p>Hi <script>evil()</script>there</p>")
          = ((extractByText tableLib
                (attachedLeaf "text/html" "<p>Hi <script>evil()</script>there</p>")).1,
              (extractByText tableLib
                (attachedLeaf "text/html" "<p>Hi <script>evil()</script>there</p>")).2, none))
      ∧ ((attachedLeaf "text/html" "<p>Hi <script>evil()</script>there</p>").IsText = false
        → FindTextBody tableLib
            (attachedLeaf "text/html" "<p>Hi <script>evil()</script>there</p>")
          = ("", false, none)) :=
  ⟨rfl, FindTextBody_not_multipart tableLib _ rfl⟩

/-- C7: `extractByText` on a node whose media type (parameters dropped, lower
case) is text/html returns the flattened document and `true` when the HTML parser
succeeds, and the body unchanged and `false` when it fails; for every other media
type, the empty one of a `Content-Type` that does not parse included, it returns
the body unchanged and `false`. It has no error result. -/
theorem extractByText_spec (lib : Lib) (m : JSONMail) :
    (mediaType lib m = "text/html" → ∀ n, lib.HtmlParse m.Body = .ok n
        → extractByText lib m = (getNodeText n, true))
      ∧ (mediaType lib m = "text/html" → ∀ e, lib.HtmlParse m.Body = .error e
        → extractByText lib m = (m.Body, false))
      ∧ (mediaType lib m ≠ "text/html" → extractByText lib m = (m.Body, false))
      ∧ ((lib.ParseMediaType (m.Header.Get "Content-Type")).1 = ""
        → extractByText lib m = (m.Body, false)) := by
  refine ⟨?_, ?_, extractByText_other lib m, ?_⟩
  · intro h n hn
    have h' : ToLower (lib.ParseMediaType (m.Header.Get "Content-Type")).1 = "text/html" := h
    unfold extractByText
    simp only [h', ↓reduceIte, hn]
  · intro h e he
    have h' : ToLower (lib.ParseMediaType (m.Header.Get "Content-Type")).1 = "text/html" := h
    unfold extractByText
    simp only [h', ↓reduceIte, he]
  · intro h
    apply extractByText_other
    unfold mediaType
    rw [h]
    decide

theorem extractByText_spec_witness :
    extractByText tableLib (textLeaf "text/html" "<p>Hi <script>evil()</script>there</p>")
        = (getNodeText sampleDocument, true)
      ∧ getNodeText sampleDocument = "Hi there"
      ∧ extractByText tableLib (textLeaf "text/html" "<p>unclosed")
        = ("<p>unclosed", false)
      ∧ extractByText tableLib (textLeaf "text/plain" "<b>kept</b>")
        = ("<b>kept</b>", false) :=
  ⟨(extractByText_spec tableLib _).1 (by decide) sampleDocument rfl, by decide,
    (extractByText_spec tableLib _).2.1 (by decide) "html: cannot parse" rfl,
    (extractByText_spec tableLib _).2.2.1 (by decide)⟩

theorem selectedPart_eq (lib : Lib) (m : JSONMail) :
    selectedPart lib m
      = ((levelOrder m).find? (isPlainCandidate lib)).or
          ((levelOrder m).find? (isHtmlCandidate lib)) := by
  unfold selectedPart
  rw [queue_eq_levelOrder, scanQueue_eq]
  simp only [Option.none_or]
  cases (levelOrder m).find? (isPlainCandidate lib) <;> simp

theorem FindTextBody_selected (lib : Lib) (m : JSONMail) (h : m.IsMultipart = true) :
    FindTextBody lib m =
      match selectedPart lib m with
      | some p => ((extractByText lib p).1, (extractByText lib p).2, none)
      | none => ("", false, some errNotFound) := by
  rw [FindTextBody_multipart lib m h, selectedPart_eq]
  cases hp : (levelOrder m).find? (isPlainCandidate lib) with
  | some t =>
    have := extractByText_plain lib t (List.find?_some hp)
    simp [this]
  | none =>
    cases hh : (levelOrder m).find? (isHtmlCandidate lib) <;> simp

theorem exists_first (p : JSONMail → Bool) (root : JSONMail)
    (h : ∃ n ∈ root.nodes, p n = true) : ∃ c, FirstInLevelOrder p root c := by
  obtain ⟨n, hn, hp⟩ := h
  cases hf : (levelOrder root).find? p with
  | some c => exact ⟨c, first_of_find? p root c hf⟩
  | none =>
    rw [List.find?_eq_none] at hf
    have := hf n ((mem_levelOrder_iff_mem_nodes n root).mpr hn)
    simp [hp] at this

/-- C4: for a multipart root, the text/plain part `FindTextBody` extracts is the
first text/plain candidate in breadth-first level order (smallest depth, then
left to right within the level); such a first candidate exists as soon as the
subtree holds a text/plain candidate, at whatever depth. The same holds for the
text/html candidate when the subtree holds no text/plain candidate. -/
theorem FindTextBody_first_in_level_order (lib : Lib) (root : JSONMail)
    (hm : root.IsMultipart = true) :
    (∀ c, FirstInLevelOrder (isPlainCandidate lib) root c
        → selectedPart lib root = some c ∧ FindTextBody lib root = (c.Body, false, none))
      ∧ ((∀ n ∈ root.nodes, isPlainCandidate lib n = false)
        → ∀ c, FirstInLevelOrder (isHtmlCandidate lib) root c
          → selectedPart lib root = some c
            ∧ FindTextBody lib root
              = ((extractByText lib c).1, (extractByText lib c).2, none))
      ∧ ((∃ n ∈ root.nodes, isPlainCandidate lib n = true)
        → ∃ c, FirstInLevelOrder (isPlainCandidate lib) root c)
      ∧ ((∃ n ∈ root.nodes, isHtmlCandidate lib n = true)
        → ∃ c, FirstInLevelOrder (isHtmlCandidate lib) root c) := by
  refine ⟨?_, ?_, exists_first _ root, exists_first _ root⟩
  · intro c hc
    have hf := find?_of_first _ root c hc
    rw [FindTextBody_multipart lib root hm, selectedPart_eq, hf]
    simp
  · intro hnone c hc
    have hf := find?_of_first _ root c hc
    have hp : (levelOrder root).find? (isPlainCandidate lib) = none := by
      rw [List.find?_eq_none]
      intro x hx
      simp [hnone x ((mem_levelOrder_iff_mem_nodes x root).mp hx)]
    rw [FindTextBody_multipart lib root hm, selectedPart_eq, hf, hp]
    simp

theorem FindTextBody_first_in_level_order_witness :
    nestedTree.IsMultipart = true
      ∧ selectedPart tableLib nestedTree = some (textLeaf "text/plain" "shallow")
      ∧ FindTextBody tableLib nestedTree = ("shallow", false, none) :=
  ⟨rfl, (FindTextBody_first_in_level_order tableLib nestedTree rfl).1
    (textLeaf "text/plain" "shallow")
    ⟨1, 1, rfl, by decide,
      by
        intro d' hd' x hx
        have : d' = 0 := by omega
        subst this
        simp only [atDepth, List.mem_singleton] at hx
        subst hx
        decide,
      by
        intro j hj x hx
        have : j = 0 := by omega
        subst this
        simp only [atDepth, nestedTree, multipartNode, List.flatMap_cons, List.flatMap_nil,
          List.append_nil, List.singleton_append, List.getElem?_cons_zero,
          Option.some.injEq] at hx
        subst hx
        decide⟩⟩

/-- C5: for a multipart root, a node whose `Content-Disposition` value is not
empty is never the part `FindTextBody` extracts, text/plain text leaf or not; and
when every text leaf of the tree carries a `Content-Disposition`, `FindTextBody`
fails with the not-found error. -/
theorem FindTextBody_skips_disposition (lib : Lib) (root : JSONMail)
    (hm : root.IsMultipart = true) :
    (FindTextBody lib root =
        match selectedPart lib root with
        | some p => ((extractByText lib p).1, (extractByText lib p).2, none)
        | none => ("", false, some "could not find valid text part"))
      ∧ (∀ n, n.Header.Get "Content-Disposition" ≠ "" → selectedPart lib root ≠ some n)
      ∧ ((∀ n ∈ root.nodes, n.IsMultipart = false → n.IsText = true
            → n.Header.Get "Content-Disposition" ≠ "")
        → FindTextBody lib root = ("", false, some "could not find valid text part")) := by
  refine ⟨FindTextBody_selected lib root hm, ?_, ?_⟩
  · intro n hn hs
    rw [selectedPart_eq, Option.or_eq_some] at hs
    have hc : isCandidate n = true := by
      rcases hs with hs | ⟨_, hs⟩
      · have := List.find?_some hs
        simp only [isPlainCandidate, Bool.and_eq_true] at this
        exact this.1
      · have := List.find?_some hs
        simp only [isHtmlCandidate, Bool.and_eq_true] at this
        exact this.1
    simp only [isCandidate, Bool.and_eq_true, beq_iff_eq] at hc
    exact hn hc.2
  · intro hall
    have hno : ∀ n ∈ levelOrder root, isCandidate n = false := by
      intro n hn
      have hn' := (mem_levelOrder_iff_mem_nodes n root).mp hn
      cases hmp : n.IsMultipart with
      | true => simp [isCandidate, hmp]
      | false =>
        cases ht : n.IsText with
        | false => simp [isCandidate, ht]
        | true =>
          have := hall n hn' hmp ht
          simp [isCandidate, hmp, ht, this]
    have hp : (levelOrder root).find? (isPlainCandidate lib) = none := by
      rw [List.find?_eq_none]
      intro x hx
      simp [isPlainCandidate, hno x hx]
    have hh : (levelOrder root).find? (isHtmlCandidate lib) = none := by
      rw [List.find?_eq_none]
      intro x hx
      simp [isHtmlCandidate, hno x hx]
    rw [FindTextBody_multipart lib root hm, hp, hh]
    rfl

theorem FindTextBody_skips_disposition_witness :
    (multipartNode [binaryLeaf "AAAA", attachedLeaf "text/plain" "note"]).IsMultipart = true
      ∧ FindTextBody tableLib (multipartNode [binaryLeaf "AAAA", attachedLeaf "text/plain" "note"])
        = ("", false, some "could not find valid text part") :=
  ⟨rfl, (FindTextBody_skips_disposition tableLib
      (multipartNode [binaryLeaf "AAAA", attachedLeaf "text/plain" "note"]) rfl).2.2
    (by
      intro n hn hmp ht
      simp only [multipartNode, binaryLeaf, attachedLeaf, JSONMail.nodes, JSONMail.nodesList,
        List.mem_cons, List.append_nil, List.cons_append, List.nil_append,
        List.mem_singleton, List.not_mem_nil, or_false] at hn
      rcases hn with rfl | rfl | rfl
      · simp at hmp
      · simp at ht
      · decide)⟩

/-! ## Flattening of an HTML document -/

theorem concat_append (a b : List String) : concat (a ++ b) = concat a ++ concat b := by
  induction a with
  | nil => simp [concat]
  | cons s a ih => simp [concat, ih, String.append_assoc]

theorem node_size_eq (n : Node) : n.size = 1 + Node.sizeList n.Children := by
  cases n
  simp [Node.size]

theorem node_size_le_sizeList (c : Node) (cs : List Node) (h : c ∈ cs) :
    c.size ≤ Node.sizeList cs := by
  induction cs with
  | nil => simp at h
  | cons x cs ih =>
    simp only [Node.sizeList]
    rcases List.mem_cons.mp h with rfl | h'
    · omega
    · have := ih h'
      omega

/-- Induction over a document: a property that holds for a node as soon as it
holds for its children holds for every node. -/
theorem node_induction (P : Node → Prop) (h : ∀ n, (∀ c ∈ n.Children, P c) → P n) :
    ∀ n, P n := by
  intro n
  generalize hs : n.size = k
  induction k using Nat.strong_induction_on generalizing n with
  | _ k ih =>
    apply h
    intro c hc
    have hlt : c.size < k := by
      have := node_size_le_sizeList c n.Children hc
      rw [← hs, node_size_eq n]
      omega
    exact ih c.size hlt c rfl

theorem walk_eq (anc : List Node) (n : Node) :
    n.walk anc = (anc, n) :: Node.walkList (anc ++ [n]) n.Children := by
  cases n
  simp [Node.walk]

theorem getNodeText_eq (n : Node) :
    getNodeText n =
      if n.Kind = NodeType.TextNode then n.Data
      else if !n.Children.isEmpty then getNodeText.loop "" n.Children
      else "" := by
  cases n
  simp [getNodeText]

theorem textLeaves_eq (n : Node) :
    textLeaves n = ((n.Kind != NodeType.TextNode || n.Children.isEmpty) && textLeavesList n.Children) := by
  cases n
  simp [textLeaves]

theorem textLeavesList_mem (cs : List Node) (h : textLeavesList cs = true) :
    ∀ c ∈ cs, textLeaves c = true := by
  induction cs with
  | nil => simp
  | cons x cs ih =>
    simp only [textLeavesList, Bool.and_eq_true] at h
    intro c hc
    rcases List.mem_cons.mp hc with rfl | h'
    · exact h.1
    · exact ih h.2 c h'

theorem loop_eq (buf : String) (cs : List Node) :
    getNodeText.loop buf cs
      = buf ++ concat (cs.map (fun c => if isSkipped c then "" else getNodeText c)) := by
  induction cs generalizing buf with
  | nil => simp [getNodeText.loop, concat]
  | cons c cs ih =>
    rw [getNodeText.loop]
    by_cases hs : isSkipped c = true
    · have hs' : (c.Kind = NodeType.ElementNode && (c.Data == "script" || c.Data == "style")) = true := hs
      simp only [hs', ↓reduceIte, ih, List.map_cons, hs, concat, String.empty_append]
    · have hs0 : isSkipped c = false := by simpa using hs
      have hs' : (c.Kind = NodeType.ElementNode && (c.Data == "script" || c.Data == "style")) = false := hs0
      simp only [hs', Bool.false_eq_true, ↓reduceIte, ih, List.map_cons, hs0, concat,
        String.append_assoc]

theorem getNodeText_children (n : Node) (h : n.Kind ≠ NodeType.TextNode) :
    getNodeText n
      = concat (n.Children.map (fun c => if isSkipped c then "" else getNodeText c)) := by
  rw [getNodeText_eq, if_neg h]
  cases hc : n.Children with
  | nil => simp [concat]
  | cons c cs => simp [loop_eq]

/-- Below a chain that holds a `script` or `style` element no text node is visible. -/
theorem hidden_below (n : Node) :
    ∀ anc : List Node, anc.all (fun a => !isSkipped a) = false
      → (n.walk anc).filter isVisibleText = [] := by
  induction n using node_induction with
  | _ n ih =>
    intro anc hanc
    rw [walk_eq]
    have hhead : isVisibleText (anc, n) = false := by simp [isVisibleText, hanc]
    rw [List.filter_cons_of_neg (by simp [hhead])]
    have hanc' : (anc ++ [n]).all (fun a => !isSkipped a) = false := by
      rw [List.all_append, hanc]
      rfl
    generalize anc ++ [n] = anc' at hanc'
    generalize n.Children = cs at ih
    induction cs with
    | nil => simp [Node.walkList]
    | cons c cs ihcs =>
      simp only [Node.walkList, List.filter_append]
      rw [ih c (List.mem_cons_self c cs) anc' hanc', ihcs (fun x hx => ih x (List.mem_cons_of_mem c hx))]
      rfl

/-- Below a chain without `script` or `style` element, the visible text of a node
is what the loop of `getNodeText` adds for it. -/
theorem visible_below (n : Node) :
    ∀ anc : List Node, anc.all (fun a => !isSkipped a) = true → textLeaves n = true
      → concat (((n.walk anc).filter isVisibleText).map (fun p => p.2.Data))
        = if isSkipped n then "" else getNodeText n := by
  induction n using node_induction with
  | _ n ih =>
    intro anc hanc hleaf
    rw [textLeaves_eq, Bool.and_eq_true] at hleaf
    rw [walk_eq]
    by_cases hs : isSkipped n = true
    · have hk : n.Kind = NodeType.ElementNode := by
        simp only [isSkipped, Bool.and_eq_true, decide_eq_true_eq] at hs
        exact hs.1
      have hhead : isVisibleText (anc, n) = false := by simp [isVisibleText, hk]
      rw [List.filter_cons_of_neg (by simp [hhead])]
      have hanc' : (anc ++ [n]).all (fun a => !isSkipped a) = false := by
        rw [List.all_append]
        simp [hs]
      have : (Node.walkList (anc ++ [n]) n.Children).filter isVisibleText = [] := by
        generalize anc ++ [n] = anc' at hanc'
        generalize n.Children = cs
        induction cs with
        | nil => simp [Node.walkList]
        | cons c cs ihcs =>
          simp only [Node.walkList, List.filter_append]
          rw [hidden_below c anc' hanc', ihcs]
          rfl
      rw [this]
      simp [hs, concat]
    · have hs0 : isSkipped n = false := by simpa using hs
      simp only [hs0, Bool.false_eq_true, ↓reduceIte]
      by_cases hk : n.Kind = NodeType.TextNode
      · have hcs : n.Children = [] := by
          have := hleaf.1
          simp only [hk, bne_self_eq_false, Bool.false_or, List.isEmpty_iff] at this
          exact this
        have hhead : isVisibleText (anc, n) = true := by simp [isVisibleText, hk, hanc]
        rw [List.filter_cons_of_pos hhead, hcs, getNodeText_eq, if_pos hk]
        simp [Node.walkList, concat]
      · have hhead : isVisibleText (anc, n) = false := by simp [isVisibleText, hk]
        rw [List.filter_cons_of_neg (by simp [hhead]), getNodeText_children n hk]
        have hanc' : (anc ++ [n]).all (fun a => !isSkipped a) = true := by
          rw [List.all_append, hanc]
          simp [hs0]
        have hl := textLeavesList_mem _ hleaf.2
        generalize anc ++ [n] = anc' at hanc'
        generalize n.Children = cs at ih hl
        induction cs with
        | nil => simp [Node.walkList, concat]
        | cons c cs ihcs =>
          simp only [Node.walkList, List.filter_append, List.map_append, concat_append,
            List.map_cons, concat]
          rw [ih c (List.mem_cons_self c cs) anc' hanc' (hl c (List.mem_cons_self c cs)),
            ihcs (fun x hx => ih x (List.mem_cons_of_mem c hx))
              (fun x hx => hl x (List.mem_cons_of_mem c hx))]

theorem visible_children (anc : List Node) (cs : List Node)
    (hanc : anc.all (fun a => !isSkipped a) = true) (hl : textLeavesList cs = true) :
    concat (((Node.walkList anc cs).filter isVisibleText).map (fun p => p.2.Data))
      = concat (cs.map (fun c => if isSkipped c then "" else getNodeText c)) := by
  induction cs with
  | nil => simp [Node.walkList, concat]
  | cons c cs ih =>
    simp only [textLeavesList, Bool.and_eq_true] at hl
    simp only [Node.walkList, List.filter_append, List.map_append, concat_append,
      List.map_cons, concat]
    rw [visible_below c anc hanc hl.1, ih hl.2]

/-- C8: for every document whose text nodes are leaves, `getNodeText` of the root
is the concatenation, in document order, of the `Data` of exactly the text nodes
that have no `script` or `style` element among their ancestors below the root.
The root may be any node, a `script` or `style` element included. -/
theorem getNodeText_visibleText (root : Node) (h : textLeaves root = true) :
    getNodeText root = visibleText root := by
  unfold visibleText documentOrder
  rw [textLeaves_eq, Bool.and_eq_true] at h
  by_cases hk : root.Kind = NodeType.TextNode
  · have hcs : root.Children = [] := by
      have := h.1
      simp only [hk, bne_self_eq_false, Bool.false_or, List.isEmpty_iff] at this
      exact this
    have hhead : isVisibleText ([], root) = true := by simp [isVisibleText, hk]
    rw [List.filter_cons_of_pos hhead, hcs, getNodeText_eq, if_pos hk]
    simp [Node.walkList, concat]
  · have hhead : isVisibleText ([], root) = false := by simp [isVisibleText, hk]
    rw [List.filter_cons_of_neg (by simp [hhead]), getNodeText_children root hk,
      visible_children [] root.Children (by simp) h.2]

theorem getNodeText_visibleText_witness :
    textLeaves sampleDocument = true
      ∧ getNodeText sampleDocument = visibleText sampleDocument
      ∧ visibleText sampleDocument = "Hi there" :=
  ⟨by decide, getNodeText_visibleText sampleDocument (by decide), by decide⟩

/-! ## Properties of the tree builder -/

theorem parseMessage_parent (lib : Lib) (parent : JSONMail) (body : Reader)
    (header : MIMEHeader) (depth : Nat) :
    parseMessage lib parent body header depth
      = ({ parent with Children := parent.Children ++ [builtNode lib body header depth] },
          (parseMessage lib JSONMail.zero body header depth).2) := by
  cases body with
  | mk chunks rerr split =>
    unfold builtNode
    rw [parseMessage, parseMessage]
    simp [JSONMail.zero]

theorem parts_eq (lib : Lib) (depth : Nat) (l : List (MIMEHeader × Reader)) :
    ∀ (ps : Parts) (jsm : JSONMail), ps.toList = l →
      parseMessage.parts lib jsm ps depth
        = ({ jsm with Children := jsm.Children
              ++ l.map (fun p => builtNode lib p.2 p.1 (depth + 1)) }, ps.ending) := by
  induction l with
  | nil =>
    intro ps jsm h
    cases jsm
    cases ps with
    | EOF => simp [parseMessage.parts, Parts.ending]
    | fail msg => simp [parseMessage.parts, Parts.ending]
    | part hd b rest => simp [Parts.toList] at h
  | cons p l ih =>
    intro ps jsm h
    cases ps with
    | EOF => simp [Parts.toList] at h
    | fail msg => simp [Parts.toList] at h
    | part hd b rest =>
      simp only [Parts.toList, List.cons.injEq] at h
      obtain ⟨rfl, hl⟩ := h
      rw [parseMessage.parts, parseMessage_parent, ih rest _ hl]
      simp [Parts.ending]

theorem built_leaf (lib : Lib) (body : Reader) (header : MIMEHeader) (depth : Nat)
    (hmp : isMultipartType (header.Get "Content-Type") = false) :
    (builtNode lib body header depth, (parseMessage lib JSONMail.zero body header depth).2)
      = match getReader lib body header with
        | (none, some e) =>
          ({ Header := copyHeader lib header, IsText := false, Body := "", IsMultipart := false,
             Error := e, Children := [] }, some e)
        | (none, none) =>
          ({ Header := copyHeader lib header, IsText := false, Body := "", IsMultipart := false,
             Error := "nil reader", Children := [] }, some "nil reader")
        | (some r, err) =>
          if isTextType (header.Get "Content-Type") = true then
            match (copyToBuffer "" r).2 with
            | some e =>
              ({ Header := copyHeader lib header, IsText := true, Body := "", IsMultipart := false,
                 Error := e, Children := [] }, some e)
            | none =>
              ({ Header := copyHeader lib header, IsText := true, Body := (copyToBuffer "" r).1,
                 IsMultipart := false, Error := err.getD "", Children := [] }, none)
          else
            match (copyToEncoder { buf := [], out := "" } r).2 with
            | some e =>
              ({ Header := copyHeader lib header, IsText := false, Body := "", IsMultipart := false,
                 Error := e, Children := [] }, some e)
            | none =>
              ({ Header := copyHeader lib header, IsText := false,
                 Body := (copyToEncoder { buf := [], out := "" } r).1.out,
                 IsMultipart := false, Error := err.getD "", Children := [] }, none) := by
  cases body with
  | mk chunks rerr split =>
    unfold isMultipartType at hmp
    unfold builtNode isTextType
    rw [parseMessage]
    simp only [JSONMail.zero, List.nil_append, hmp]
    generalize getReader lib (Reader.mk chunks rerr split) header = g
    obtain ⟨r, err⟩ := g
    cases r with
    | none => cases err <;> rfl
    | some r =>
      simp only [Bool.not_false, ↓reduceIte]
      by_cases ht : (decide ((header.Get "Content-Type").length > 5)
          && ToLower ((header.Get "Content-Type").take 5) == "text/") = true
      · simp only [ht, ↓reduceIte]
        cases err <;> cases (copyToBuffer "" r).2 <;> rfl
      · simp only [ht, ↓reduceIte]
        have ht' : (decide ((header.Get "Content-Type").length > 5)
          && ToLower ((header.Get "Content-Type").take 5) == "text/") = false := by simpa using ht
        cases err <;> cases (copyToEncoder { buf := [], out := "" } r).2 <;> simp [ht']

theorem built_multipart (lib : Lib) (body : Reader) (header : MIMEHeader) (depth : Nat)
    (hmp : isMultipartType (header.Get "Content-Type") = true) :
    (builtNode lib body header depth, (parseMessage lib JSONMail.zero body header depth).2)
      = match lib.ParseMediaType (header.Get "Content-Type") with
        | (_, _, some e) =>
          ({ Header := copyHeader lib header, IsText := false, Body := "", IsMultipart := true,
             Error := e, Children := [] }, some e)
        | (_, params, none) =>
          match params.lookup "boundary" with
          | none =>
            ({ Header := copyHeader lib header, IsText := false, Body := "", IsMultipart := true,
               Error := errBoundaryMissing (header.Get "Content-Type"), Children := [] },
              some (errBoundaryMissing (header.Get "Content-Type")))
          | some boundary =>
            match (body.split boundary).ending with
            | NextErr.EOF =>
              ({ Header := copyHeader lib header, IsText := false, Body := "", IsMultipart := true,
                 Error := "",
                 Children := (body.split boundary).toList.map
                   (fun p => builtNode lib p.2 p.1 (depth + 1)) }, none)
            | NextErr.other e =>
              ({ Header := copyHeader lib header, IsText := false, Body := "", IsMultipart := true,
                 Error := e,
                 Children := (body.split boundary).toList.map
                   (fun p => builtNode lib p.2 p.1 (depth + 1)) }, some e) := by
  cases body with
  | mk chunks rerr split =>
    unfold isMultipartType at hmp
    unfold builtNode
    rw [parseMessage]
    simp only [JSONMail.zero, List.nil_append, parts_eq lib depth _ _ _ rfl, hmp, Reader.split]
    generalize lib.ParseMediaType (header.Get "Content-Type") = g
    obtain ⟨mt, params, err⟩ := g
    cases err with
    | some e => rfl
    | none =>
      simp only [Bool.not_true, Bool.false_eq_true, ↓reduceIte]
      cases List.lookup "boundary" params with
      | none => rfl
      | some boundary =>
        simp only
        cases (split boundary).ending <;> rfl

theorem builtNode_IsMultipart (lib : Lib) (body : Reader) (header : MIMEHeader) (depth : Nat) :
    (builtNode lib body header depth).IsMultipart = isMultipartType (header.Get "Content-Type") := by
  cases hmp : isMultipartType (header.Get "Content-Type") with
  | false =>
    have h := congrArg Prod.fst (built_leaf lib body header depth hmp)
    simp only at h
    rw [h]
    split
    · rfl
    · rfl
    · split
      · split <;> rfl
      · split <;> rfl
  | true =>
    have h := congrArg Prod.fst (built_multipart lib body header depth hmp)
    simp only at h
    rw [h]
    split
    · rfl
    · split
      · rfl
      · split <;> rfl

theorem getReader_of_ok (lib : Lib) (body r : Reader) (header : MIMEHeader)
    (h : lib.TransferEncodingDecoder body (header.Get "Content-Transfer-Encoding") = .ok r) :
    ∃ r' err, getReader lib body header = (some r', err) := by
  unfold getReader
  rw [h]
  simp only
  split
  · split
    · exact ⟨_, _, rfl⟩
    · exact ⟨_, _, rfl⟩
  · exact ⟨_, _, rfl⟩

theorem builtNode_IsText (lib : Lib) (body r : Reader) (header : MIMEHeader) (depth : Nat)
    (hmp : isMultipartType (header.Get "Content-Type") = false)
    (h : lib.TransferEncodingDecoder body (header.Get "Content-Transfer-Encoding") = .ok r) :
    (builtNode lib body header depth).IsText = isTextType (header.Get "Content-Type") := by
  have hb := congrArg Prod.fst (built_leaf lib body header depth hmp)
  simp only at hb
  obtain ⟨r', err, hg⟩ := getReader_of_ok lib body r header h
  rw [hb, hg]
  simp only
  cases ht : isTextType (header.Get "Content-Type") with
  | true =>
    simp only [↓reduceIte]
    split <;> rfl
  | false =>
    simp only [Bool.false_eq_true, ↓reduceIte]
    split <;> rfl

theorem isMultipartType_iff (ct : String) :
    isMultipartType ct = true ↔ 10 < ct.length ∧ ToLower (ct.take 10) = "multipart/" := by
  simp [isMultipartType]

theorem isTextType_iff (ct : String) :
    isTextType ct = true ↔ 5 < ct.length ∧ ToLower (ct.take 5) = "text/" := by
  simp [isTextType]

/-- C10, the claim as stated fails: the values "multipart/" and "text/" have
exactly 10 and 5 characters and match case-insensitively, yet the nodes built for
them are neither multipart nor text; and the node built for "text/plain" with a
transfer encoding the decoder rejects is not multipart and not text either. -/
theorem classification_counterexample :
    ((10 ≤ ("multipart/" : String).length
        ∧ ToLower (("multipart/" : String).take 10) = "multipart/")
      ∧ (builtNode tableLib (bytesReader []) [("Content-Type", ["multipart/"])] 0).IsMultipart
        = false)
    ∧ ((5 ≤ ("text/" : String).length ∧ ToLower (("text/" : String).take 5) = "text/")
      ∧ (builtNode tableLib (bytesReader []) [("Content-Type", ["text/"])] 0).IsMultipart = false
      ∧ (builtNode tableLib (bytesReader []) [("Content-Type", ["text/"])] 0).IsText = false)
    ∧ ((5 ≤ ("text/plain" : String).length
        ∧ ToLower (("text/plain" : String).take 5) = "text/")
      ∧ (builtNode tableLib (bytesReader [66])
          [("Content-Type", ["text/plain"]), ("Content-Transfer-Encoding", ["x-unknown"])]
          0).IsMultipart = false
      ∧ (builtNode tableLib (bytesReader [66])
          [("Content-Type", ["text/plain"]), ("Content-Transfer-Encoding", ["x-unknown"])]
          0).IsText = false) := by
  decide

/-- C10, amended: for every raw `Content-Type` value `ct`, the node built has
`IsMultipart = true` exactly when `ct` has more than 10 characters and its first
10 characters equal "multipart/" case-insensitively; and, when it is not multipart
and the transfer decoder returned a reader, `IsText = true` exactly when `ct` has
more than 5 characters and its first 5 characters equal "text/" case-insensitively. -/
theorem parseMessage_classification (lib : Lib) (parent : JSONMail) (body : Reader)
    (header : MIMEHeader) (depth : Nat) :
    ∃ jsm, (parseMessage lib parent body header depth).1
        = { parent with Children := parent.Children ++ [jsm] }
      ∧ (jsm.IsMultipart = true
          ↔ 10 < (header.Get "Content-Type").length
            ∧ ToLower ((header.Get "Content-Type").take 10) = "multipart/")
      ∧ (jsm.IsMultipart = false
          → ∀ r, lib.TransferEncodingDecoder body (header.Get "Content-Transfer-Encoding") = .ok r
            → (jsm.IsText = true
              ↔ 5 < (header.Get "Content-Type").length
                ∧ ToLower ((header.Get "Content-Type").take 5) = "text/")) := by
  refine ⟨builtNode lib body header depth, ?_, ?_, ?_⟩
  · rw [parseMessage_parent]
  · rw [builtNode_IsMultipart, isMultipartType_iff]
  · intro hmp r hr
    rw [builtNode_IsMultipart] at hmp
    rw [builtNode_IsText lib body r header depth hmp hr, isTextType_iff]

theorem ofList_toList (ps : List (MIMEHeader × Reader)) (e : Parts) :
    (Parts.ofList ps e).toList = ps ++ e.toList := by
  induction ps with
  | nil => simp [Parts.ofList]
  | cons p ps ih => simp [Parts.ofList, Parts.toList, ih]

theorem ofList_ending (ps : List (MIMEHeader × Reader)) (e : Parts) :
    (Parts.ofList ps e).ending = e.ending := by
  induction ps with
  | nil => simp [Parts.ofList]
  | cons p ps ih => simp [Parts.ofList, Parts.ending, ih]

theorem builtNode_Header (lib : Lib) (body : Reader) (header : MIMEHeader) (depth : Nat) :
    (builtNode lib body header depth).Header = copyHeader lib header := by
  cases hmp : isMultipartType (header.Get "Content-Type") with
  | false =>
    have h := congrArg Prod.fst (built_leaf lib body header depth hmp)
    simp only at h
    rw [h]
    split
    · rfl
    · rfl
    · split
      · split <;> rfl
      · split <;> rfl
  | true =>
    have h := congrArg Prod.fst (built_multipart lib body header depth hmp)
    simp only at h
    rw [h]
    split
    · rfl
    · split
      · rfl
      · split <;> rfl

/-- C9: for a multipart node whose splitter yields the parts `ps` and then
signals end of stream, the node built has exactly one child per part, in source
order; the child at position `i` is the node `parseMessage` builds from the
header and body of part `i`, with the header of that part, decoded, whether or
not building it failed. -/
theorem parseMessage_children_in_order (lib : Lib) (parent : JSONMail) (body : Reader)
    (header : MIMEHeader) (depth : Nat) (mt : String) (params : List (String × String))
    (boundary : String) (ps : List (MIMEHeader × Reader))
    (hmp : 10 < (header.Get "Content-Type").length
      ∧ ToLower ((header.Get "Content-Type").take 10) = "multipart/")
    (hpm : lib.ParseMediaType (header.Get "Content-Type") = (mt, params, none))
    (hb : params.lookup "boundary" = some boundary)
    (hs : body.split boundary = Parts.ofList ps Parts.EOF) :
    ∃ jsm, parseMessage lib parent body header depth
        = ({ parent with Children := parent.Children ++ [jsm] }, none)
      ∧ jsm.Children.length = ps.length
      ∧ jsm.Children = ps.map (fun p => builtNode lib p.2 p.1 (depth + 1))
      ∧ ∀ p ∈ ps,
          (builtNode lib p.2 p.1 (depth + 1)).Header = copyHeader lib p.1
          ∧ ∀ parent' : JSONMail, (parseMessage lib parent' p.2 p.1 (depth + 1)).1
            = { parent' with
                Children := parent'.Children ++ [builtNode lib p.2 p.1 (depth + 1)] } := by
  have hmp' := (isMultipartType_iff _).mpr hmp
  have h := built_multipart lib body header depth hmp'
  rw [hpm] at h
  simp only [hb, hs, ofList_ending, Parts.ending, ofList_toList, Parts.toList,
    List.append_nil] at h
  have h1 := congrArg Prod.fst h
  have h2 := congrArg Prod.snd h
  simp only at h1 h2
  refine ⟨builtNode lib body header depth, ?_, ?_, ?_, ?_⟩
  · rw [parseMessage_parent, h2]
  · rw [h1]
    simp
  · rw [h1]
  · intro p _
    refine ⟨builtNode_Header lib p.2 p.1 (depth + 1), fun parent' => ?_⟩
    rw [parseMessage_parent]

theorem parseMessage_children_in_order_witness :
    ∃ jsm, parseMessage tableLib JSONMail.zero sampleMultipart sampleMultipartHeader 0
        = ({ JSONMail.zero with Children := JSONMail.zero.Children ++ [jsm] }, none)
      ∧ jsm.Children.length = sampleParts.length
      ∧ jsm.Children = sampleParts.map (fun p => builtNode tableLib p.2 p.1 (0 + 1))
      ∧ ∀ p ∈ sampleParts,
          (builtNode tableLib p.2 p.1 (0 + 1)).Header = copyHeader tableLib p.1
          ∧ ∀ parent' : JSONMail, (parseMessage tableLib parent' p.2 p.1 (0 + 1)).1
            = { parent' with
                Children := parent'.Children ++ [builtNode tableLib p.2 p.1 (0 + 1)] } :=
  parseMessage_children_in_order tableLib JSONMail.zero sampleMultipart sampleMultipartHeader 0
    "multipart/mixed" [("boundary", "b")] "b" sampleParts (by decide) rfl rfl rfl

theorem sample_children :
    (builtNode tableLib sampleMultipart sampleMultipartHeader 0).Children.map
        (fun c => (c.Body, c.Error))
      = [("hi", ""), ("", "unsupported transfer encoding"), ("YWJj", "")] := by
  decide

/-! ## Base64 body of a leaf that is not text -/

theorem list_induction3 {α : Type} (P : List α → Prop) (h0 : P []) (h1 : ∀ a, P [a])
    (h2 : ∀ a b, P [a, b]) (h3 : ∀ a b c rest, P rest → P (a :: b :: c :: rest)) :
    ∀ l, P l
  | [] => h0
  | [a] => h1 a
  | [a, b] => h2 a b
  | a :: b :: c :: rest => h3 a b c rest (list_induction3 P h0 h1 h2 h3 rest)

theorem sextetOf_sextetChar (v : Nat) (h : v < 64) : sextetOf (sextetChar v) = some v := by
  have key : ∀ w : Fin 64, sextetOf (sextetChar w.val) = some w.val := by decide
  exact key ⟨v, h⟩

theorem sextetChar_ne_pad (v : Nat) (h : v < 64) : sextetChar v ≠ '=' := by
  have key : ∀ w : Fin 64, sextetChar w.val ≠ '=' := by decide
  exact key ⟨v, h⟩

theorem ofNat_toNat (b : UInt8) : UInt8.ofNat b.toNat = b := by
  cases b with
  | mk v =>
    apply UInt8.eq_of_toBitVec_eq
    apply BitVec.eq_of_toNat_eq
    show (BitVec.ofNat 8 v.toNat).toNat = v.toNat
    simp

theorem decode_group (b0 b1 b2 : UInt8) (rest : List Char) (bs : List UInt8)
    (h : base64DecodeChars rest = some bs) :
    base64DecodeChars (encodeGroup b0 b1 b2 ++ rest) = some (b0 :: b1 :: b2 :: bs) := by
  have l0 := UInt8.toNat_lt_size b0
  have l1 := UInt8.toNat_lt_size b1
  have l2 := UInt8.toNat_lt_size b2
  simp only [UInt8.size] at l0 l1 l2
  generalize hv : b0.toNat * 65536 + b1.toNat * 256 + b2.toNat = v
  have e0 : v / 262144 % 64 < 64 := Nat.mod_lt _ (by decide)
  have e1 : v / 4096 % 64 < 64 := Nat.mod_lt _ (by decide)
  have e2 : v / 64 % 64 < 64 := Nat.mod_lt _ (by decide)
  have e3 : v % 64 < 64 := Nat.mod_lt _ (by decide)
  have hpad : sextetChar (v % 64) ≠ '=' := sextetChar_ne_pad _ e3
  have a0 : (v / 262144 % 64 * 262144 + v / 4096 % 64 * 4096 + v / 64 % 64 * 64 + v % 64) / 65536
      = b0.toNat := by omega
  have a1 : (v / 262144 % 64 * 262144 + v / 4096 % 64 * 4096 + v / 64 % 64 * 64 + v % 64) / 256
      % 256 = b1.toNat := by omega
  have a2 : (v / 262144 % 64 * 262144 + v / 4096 % 64 * 4096 + v / 64 % 64 * 64 + v % 64) % 256
      = b2.toNat := by omega
  simp only [encodeGroup, hv, List.cons_append, List.nil_append, base64DecodeChars, hpad,
    decide_False, Bool.and_false, Bool.false_eq_true, ↓reduceIte, sextetOf_sextetChar _ e0,
    sextetOf_sextetChar _ e1, sextetOf_sextetChar _ e2, sextetOf_sextetChar _ e3,
    List.append_eq, List.nil_append, h, a0, a1, a2, ofNat_toNat]

/-- Decoding the encoding of full groups gives the bytes back. -/
theorem decode_encodeGroups (bs : List UInt8) (h : bs.length % 3 = 0) :
    base64DecodeChars (encodeGroups bs) = some bs := by
  induction bs using list_induction3 with
  | h0 => simp [encodeGroups, base64DecodeChars]
  | h1 a => simp at h
  | h2 a b => simp at h
  | h3 a b c rest ih =>
    have hr : rest.length % 3 = 0 := by
      simp only [List.length_cons] at h
      omega
    rw [encodeGroups]
    exact decode_group a b c _ rest (ih hr)

theorem encodeGroups_append (a b : List UInt8) (h : a.length % 3 = 0) :
    encodeGroups (a ++ b) = encodeGroups a ++ encodeGroups b := by
  induction a using list_induction3 with
  | h0 => simp [encodeGroups]
  | h1 x => simp at h
  | h2 x y => simp at h
  | h3 x y z rest ih =>
    have hr : rest.length % 3 = 0 := by
      simp only [List.length_cons] at h
      omega
    simp only [List.cons_append, encodeGroups, List.append_eq, ih hr, List.append_assoc]

theorem mk_append (a b : List Char) : String.mk a ++ String.mk b = String.mk (a ++ b) := rfl

theorem write_after (data p : List UInt8) :
    (Encoder.after data).Write p = Encoder.after (data ++ p) := by
  unfold Encoder.Write Encoder.after
  simp only
  have hlen : (data.take (data.length / 3 * 3)).length = data.length / 3 * 3 := by
    rw [List.length_take]
    omega
  have hdl : (data.drop (data.length / 3 * 3) ++ p).length
      = data.length - data.length / 3 * 3 + p.length := by
    rw [List.length_append, List.length_drop]
  have hsplit : data ++ p
      = data.take (data.length / 3 * 3) ++ (data.drop (data.length / 3 * 3) ++ p) := by
    rw [← List.append_assoc, List.take_append_drop]
  have hn : (data ++ p).length / 3 * 3
      = (data.take (data.length / 3 * 3)).length
        + (data.drop (data.length / 3 * 3) ++ p).length / 3 * 3 := by
    rw [hlen, hdl, List.length_append]
    omega
  rw [hn]
  conv_rhs => rw [hsplit]
  rw [List.drop_append, List.take_append, encodeGroups_append _ _ (by rw [hlen]; omega),
    mk_append]

theorem write_fold (chunks : List (List UInt8)) (data : List UInt8) :
    chunks.foldl Encoder.Write (Encoder.after data) = Encoder.after (data ++ chunks.flatten) := by
  induction chunks generalizing data with
  | nil => simp
  | cons p chunks ih =>
    rw [List.foldl_cons, write_after, ih]
    simp

/-- What `io.Copy` leaves in the stream encoder: the encoding of the full groups
of the payload; the last one or two bytes stay pending. -/
theorem copyToEncoder_eq (r : Reader) :
    (copyToEncoder { buf := [], out := "" } r).1 = Encoder.after r.payload := by
  have h := write_fold r.chunks []
  simp only [List.nil_append] at h
  exact h

theorem decode_groups_then (a : List UInt8) (rest : List Char) (bs : List UInt8)
    (h : a.length % 3 = 0) (hr : base64DecodeChars rest = some bs) :
    base64DecodeChars (encodeGroups a ++ rest) = some (a ++ bs) := by
  induction a using list_induction3 with
  | h0 => simpa [encodeGroups] using hr
  | h1 x => simp at h
  | h2 x y => simp at h
  | h3 x y z a ih =>
    have ha : a.length % 3 = 0 := by
      simp only [List.length_cons] at h
      omega
    rw [encodeGroups, List.append_assoc]
    exact decode_group x y z _ _ (ih ha)

theorem decode_tail (b : List UInt8) (h : b.length < 3) :
    base64DecodeChars (encodeTail b) = some b := by
  match b, h with
  | [], _ => simp [encodeTail, base64DecodeChars]
  | [b0], _ =>
    have l0 := UInt8.toNat_lt_size b0
    simp only [UInt8.size] at l0
    have e0 : b0.toNat * 65536 / 262144 % 64 < 64 := Nat.mod_lt _ (by decide)
    have e1 : b0.toNat * 65536 / 4096 % 64 < 64 := Nat.mod_lt _ (by decide)
    have a0 : (b0.toNat * 65536 / 262144 % 64 * 262144 + b0.toNat * 65536 / 4096 % 64 * 4096)
        / 65536 = b0.toNat := by omega
    simp only [encodeTail, base64DecodeChars, List.isEmpty_nil, decide_True, Bool.and_self,
      ↓reduceIte, sextetOf_sextetChar _ e0, sextetOf_sextetChar _ e1, a0, ofNat_toNat]
  | [b0, b1], _ =>
    have l0 := UInt8.toNat_lt_size b0
    have l1 := UInt8.toNat_lt_size b1
    simp only [UInt8.size] at l0 l1
    generalize hv : b0.toNat * 65536 + b1.toNat * 256 = v
    have e0 : v / 262144 % 64 < 64 := Nat.mod_lt _ (by decide)
    have e1 : v / 4096 % 64 < 64 := Nat.mod_lt _ (by decide)
    have e2 : v / 64 % 64 < 64 := Nat.mod_lt _ (by decide)
    have hpad : sextetChar (v / 64 % 64) ≠ '=' := sextetChar_ne_pad _ e2
    have a0 : (v / 262144 % 64 * 262144 + v / 4096 % 64 * 4096 + v / 64 % 64 * 64) / 65536
        = b0.toNat := by omega
    have a1 : (v / 262144 % 64 * 262144 + v / 4096 % 64 * 4096 + v / 64 % 64 * 64) / 256 % 256
        = b1.toNat := by omega
    simp only [encodeTail, hv, base64DecodeChars, List.isEmpty_nil, decide_True, Bool.and_self,
      ↓reduceIte, hpad, sextetOf_sextetChar _ e0, sextetOf_sextetChar _ e1,
      sextetOf_sextetChar _ e2, a0, a1, ofNat_toNat]
  | _ :: _ :: _ :: _, h => simp at h; omega

/-- With the `Close` that `parseMessage` leaves out, the encoder output decodes to
the whole payload, whatever its length. -/
theorem close_roundtrip (r : Reader) :
    base64Decode (copyToEncoder { buf := [], out := "" } r).1.Close.out = some r.payload := by
  rw [copyToEncoder_eq]
  unfold Encoder.Close Encoder.after base64Decode
  simp only [mk_append]
  have hlen : (r.payload.take (r.payload.length / 3 * 3)).length = r.payload.length / 3 * 3 := by
    rw [List.length_take]
    omega
  have hd : (r.payload.drop (r.payload.length / 3 * 3)).length < 3 := by
    rw [List.length_drop]
    omega
  rw [decode_groups_then _ _ _ (by rw [hlen]; omega) (decode_tail _ hd), List.take_append_drop]

/-- The body of a leaf that is not text, when the copy meets no read error: the
base64 text of the full 3 byte groups of the payload, which decodes to the payload
without its last `length % 3` bytes. -/
theorem nontext_leaf_body (lib : Lib) (body r : Reader) (header : MIMEHeader) (depth : Nat)
    (err : GoError) (hmp : isMultipartType (header.Get "Content-Type") = false)
    (ht : isTextType (header.Get "Content-Type") = false)
    (hg : getReader lib body header = (some r, err)) (he : r.err = none) :
    (builtNode lib body header depth).Body
        = String.mk (encodeGroups (r.payload.take (r.payload.length / 3 * 3)))
      ∧ base64Decode (builtNode lib body header depth).Body
        = some (r.payload.take (r.payload.length / 3 * 3)) := by
  have hb := congrArg Prod.fst (built_leaf lib body header depth hmp)
  simp only at hb
  rw [hg] at hb
  simp only [ht, Bool.false_eq_true, ↓reduceIte] at hb
  have he' : (copyToEncoder { buf := [], out := "" } r).2 = none := he
  rw [he'] at hb
  simp only [copyToEncoder_eq] at hb
  have hbody : (builtNode lib body header depth).Body
      = String.mk (encodeGroups (r.payload.take (r.payload.length / 3 * 3))) := by
    rw [hb]
    rfl
  refine ⟨hbody, ?_⟩
  rw [hbody]
  unfold base64Decode
  have hlen : (r.payload.take (r.payload.length / 3 * 3)).length = r.payload.length / 3 * 3 := by
    rw [List.length_take]
    omega
  exact decode_encodeGroups _ (by rw [hlen]; omega)

/-- C2 at a payload of one byte: the leaf is built without error, its body is
the empty string, which decodes to no byte at all, not to the payload; the
encoder closed would have given "YQ==", which decodes to the payload. -/
theorem nontext_leaf_body_one_byte :
    (parseMessage tableLib JSONMail.zero (bytesReader [97]) oneByteHeader 0).2 = none
      ∧ (builtNode tableLib (bytesReader [97]) oneByteHeader 0).IsText = false
      ∧ (builtNode tableLib (bytesReader [97]) oneByteHeader 0).Error = ""
      ∧ (builtNode tableLib (bytesReader [97]) oneByteHeader 0).Body = ""
      ∧ base64Decode (builtNode tableLib (bytesReader [97]) oneByteHeader 0).Body = some []
      ∧ base64Decode (builtNode tableLib (bytesReader [97]) oneByteHeader 0).Body ≠ some [97]
      ∧ (copyToEncoder { buf := [], out := "" } (bytesReader [97])).1.Close.out = "YQ=="
      ∧ base64Decode "YQ==" = some [97] := by
  decide

/-! ## Invariants of the nodes built -/

/-- Induction over a reader: a property that holds for a reader as soon as it
holds for the body of every part a splitter over it yields holds for every
reader. -/
theorem reader_induction (P : Reader → Prop)
    (h : ∀ body : Reader,
      (∀ boundary : String, ∀ p ∈ (body.split boundary).toList, P p.2) → P body) :
    ∀ body, P body := fun body =>
  @Reader.rec P (fun ps => ∀ p ∈ ps.toList, P p.2)
    (fun chunks err split ih => h (Reader.mk chunks err split) (fun b p hp => ih b p hp))
    (by simp [Parts.toList])
    (by simp [Parts.toList])
    (fun header body rest ihb ihr p hp => by
      simp only [Parts.toList, List.mem_cons] at hp
      rcases hp with rfl | hp
      · exact ihb
      · exact ihr p hp)
    body

theorem builtNode_leaf_Children (lib : Lib) (body : Reader) (header : MIMEHeader) (depth : Nat)
    (hmp : isMultipartType (header.Get "Content-Type") = false) :
    (builtNode lib body header depth).Children = [] := by
  have h := congrArg Prod.fst (built_leaf lib body header depth hmp)
  simp only at h
  rw [h]
  split
  · rfl
  · rfl
  · split
    · split <;> rfl
    · split <;> rfl

theorem builtNode_multipart_fields (lib : Lib) (body : Reader) (header : MIMEHeader)
    (depth : Nat) (hmp : isMultipartType (header.Get "Content-Type") = true) :
    (builtNode lib body header depth).IsText = false
      ∧ (builtNode lib body header depth).Body = ""
      ∧ ((builtNode lib body header depth).Children = []
        ∨ ∃ boundary, (builtNode lib body header depth).Children
            = (body.split boundary).toList.map (fun p => builtNode lib p.2 p.1 (depth + 1))) := by
  have h := congrArg Prod.fst (built_multipart lib body header depth hmp)
  simp only at h
  rw [h]
  split
  · exact ⟨rfl, rfl, Or.inl rfl⟩
  · split
    · exact ⟨rfl, rfl, Or.inl rfl⟩
    · rename_i boundary _
      split
      · exact ⟨rfl, rfl, Or.inr ⟨boundary, rfl⟩⟩
      · exact ⟨rfl, rfl, Or.inr ⟨boundary, rfl⟩⟩

theorem builtNode_invariant (lib : Lib) (body : Reader) :
    ∀ (header : MIMEHeader) (depth : Nat), ∀ n ∈ (builtNode lib body header depth).nodes,
      ¬ (n.IsText = true ∧ n.IsMultipart = true)
        ∧ (n.IsMultipart = true → n.Body = "")
        ∧ (n.IsMultipart = false → n.Children = []) := by
  induction body using reader_induction with
  | _ body ih =>
    intro header depth n hn
    rw [mem_nodes] at hn
    cases hmp : isMultipartType (header.Get "Content-Type") with
    | false =>
      have hm := builtNode_IsMultipart lib body header depth
      rw [hmp] at hm
      have hc := builtNode_leaf_Children lib body header depth hmp
      rcases hn with rfl | ⟨c, hcm, _⟩
      · exact ⟨fun h => by simp [hm] at h, fun h => by simp [hm] at h, fun _ => hc⟩
      · rw [hc] at hcm
        simp at hcm
    | true =>
      have hm := builtNode_IsMultipart lib body header depth
      rw [hmp] at hm
      obtain ⟨ht, hb, hch⟩ := builtNode_multipart_fields lib body header depth hmp
      rcases hn with rfl | ⟨c, hcm, hnc⟩
      · exact ⟨fun h => by simp [ht] at h, fun _ => hb, fun h => by simp [hm] at h⟩
      · rcases hch with hnil | ⟨boundary, hch⟩
        · rw [hnil] at hcm
          simp at hcm
        · rw [hch, List.mem_map] at hcm
          obtain ⟨p, hp, rfl⟩ := hcm
          exact ih boundary p hp p.1 (depth + 1) n hnc

/-- C11: every node `parseMessage` creates, the node for the message itself and
the nodes for its parts at any depth, whether building succeeded or failed, is
not both text and multipart, has an empty `Body` when it is multipart, and has no
children when it is not multipart. -/
theorem parseMessage_node_invariants (lib : Lib) (parent : JSONMail) (body : Reader)
    (header : MIMEHeader) (depth : Nat) :
    ∃ jsm, (parseMessage lib parent body header depth).1
        = { parent with Children := parent.Children ++ [jsm] }
      ∧ ∀ n ∈ jsm.nodes,
          ¬ (n.IsText = true ∧ n.IsMultipart = true)
            ∧ (n.IsMultipart = true → n.Body = "")
            ∧ (n.IsMultipart = false → n.Children = []) := by
  refine ⟨builtNode lib body header depth, ?_, builtNode_invariant lib body header depth⟩
  rw [parseMessage_parent]

/-! ## Error paths of the builder -/

theorem parseMessage_error_eq (lib : Lib) (parent : JSONMail) (body : Reader)
    (header : MIMEHeader) (depth : Nat) :
    (parseMessage lib parent body header depth).2
      = (parseMessage lib JSONMail.zero body header depth).2 := by
  rw [parseMessage_parent]

theorem Parse_eq (lib : Lib) (msg : Message) :
    Parse lib msg =
      match (parseMessage lib JSONMail.zero msg.Body msg.Header 0).2 with
      | some e => some (none, some e)
      | none => some (some (builtNode lib msg.Body msg.Header 0), none) := by
  unfold Parse
  simp only
  rw [parseMessage_parent]
  cases (parseMessage lib JSONMail.zero msg.Body msg.Header 0).2 <;> rfl

/-- C12: for a `Content-Type` value the builder classifies as multipart, that
parses as a media type and has no `boundary` parameter, `parseMessage` returns the
error "invalid multiparted Content-Type(boundary missing): " followed by the
original value, records the same message in the `Error` of the node, creates no
children, and `Parse` of such a message returns a nil node with that error. -/
theorem parseMessage_boundary_missing (lib : Lib) (parent : JSONMail) (body : Reader)
    (header : MIMEHeader) (depth : Nat) (mt : String) (params : List (String × String))
    (hmp : 10 < (header.Get "Content-Type").length
      ∧ ToLower ((header.Get "Content-Type").take 10) = "multipart/")
    (hpm : lib.ParseMediaType (header.Get "Content-Type") = (mt, params, none))
    (hb : params.lookup "boundary" = none) :
    ∃ jsm e, parseMessage lib parent body header depth
        = ({ parent with Children := parent.Children ++ [jsm] }, some e)
      ∧ e = "invalid multiparted Content-Type(boundary missing): " ++ header.Get "Content-Type"
      ∧ jsm.Error = e
      ∧ jsm.Children = []
      ∧ Parse lib (Message.mk header body) = some (none, some e) := by
  have hmp' := (isMultipartType_iff _).mpr hmp
  have h := built_multipart lib body header depth hmp'
  have h0 := built_multipart lib body header 0 hmp'
  rw [hpm] at h h0
  simp only [hb] at h h0
  have h1 := congrArg Prod.fst h
  have h2 := congrArg Prod.snd h
  have h3 := congrArg Prod.snd h0
  simp only at h1 h2 h3
  refine ⟨builtNode lib body header depth, errBoundaryMissing (header.Get "Content-Type"),
    ?_, rfl, ?_, ?_, ?_⟩
  · rw [parseMessage_parent, h2]
  · rw [h1]
  · rw [h1]
  · rw [Parse_eq]
    simp only [h3]

theorem parseMessage_boundary_missing_witness :
    (10 < (MIMEHeader.Get [("Content-Type", ["multipart/mixed"])] "Content-Type").length
      ∧ ToLower ((MIMEHeader.Get [("Content-Type", ["multipart/mixed"])] "Content-Type").take 10)
        = "multipart/")
    ∧ ∃ jsm e, parseMessage tableLib JSONMail.zero (bytesReader [])
          [("Content-Type", ["multipart/mixed"])] 0
        = ({ JSONMail.zero with Children := JSONMail.zero.Children ++ [jsm] }, some e)
      ∧ e = "invalid multiparted Content-Type(boundary missing): "
          ++ MIMEHeader.Get [("Content-Type", ["multipart/mixed"])] "Content-Type"
      ∧ jsm.Error = e
      ∧ jsm.Children = []
      ∧ Parse tableLib (Message.mk [("Content-Type", ["multipart/mixed"])] (bytesReader []))
        = some (none, some e) :=
  ⟨by decide, parseMessage_boundary_missing tableLib JSONMail.zero (bytesReader [])
    [("Content-Type", ["multipart/mixed"])] 0 "multipart/mixed" [] (by decide) rfl rfl⟩

/-- C13: building a multipart node whose `Content-Type` parses with a boundary
returns nil exactly when the splitter ends with end of stream, and `Error` is
then left empty; any other splitter error is recorded in `Error` and returned.
Both depend on the end of the splitter alone: every part gets its child, and
what building a child returned changes neither the result nor `Error`. -/
theorem parseMessage_multipart_result (lib : Lib) (parent : JSONMail) (body : Reader)
    (header : MIMEHeader) (depth : Nat) (mt : String) (params : List (String × String))
    (boundary : String)
    (hmp : 10 < (header.Get "Content-Type").length
      ∧ ToLower ((header.Get "Content-Type").take 10) = "multipart/")
    (hpm : lib.ParseMediaType (header.Get "Content-Type") = (mt, params, none))
    (hb : params.lookup "boundary" = some boundary) :
    ∃ jsm, (parseMessage lib parent body header depth).1
        = { parent with Children := parent.Children ++ [jsm] }
      ∧ ((parseMessage lib parent body header depth).2 = none
          ↔ (body.split boundary).ending = NextErr.EOF)
      ∧ ((body.split boundary).ending = NextErr.EOF → jsm.Error = "")
      ∧ (∀ e, (body.split boundary).ending = NextErr.other e
          → (parseMessage lib parent body header depth).2 = some e ∧ jsm.Error = e)
      ∧ jsm.Children
        = (body.split boundary).toList.map (fun p => builtNode lib p.2 p.1 (depth + 1)) := by
  have hmp' := (isMultipartType_iff _).mpr hmp
  have h := built_multipart lib body header depth hmp'
  rw [hpm] at h
  simp only [hb] at h
  refine ⟨builtNode lib body header depth, ?_, ?_⟩
  · rw [parseMessage_parent]
  rw [parseMessage_error_eq]
  cases hend : (body.split boundary).ending with
  | EOF =>
    rw [hend] at h
    have h1 := congrArg Prod.fst h
    have h2 := congrArg Prod.snd h
    simp only at h1 h2
    refine ⟨⟨fun _ => rfl, fun _ => h2⟩, fun _ => by rw [h1], fun e he => ?_, by rw [h1]⟩
    exact NextErr.noConfusion he
  | other e =>
    rw [hend] at h
    have h1 := congrArg Prod.fst h
    have h2 := congrArg Prod.snd h
    simp only at h1 h2
    refine ⟨⟨fun hn => ?_, fun he => NextErr.noConfusion he⟩,
      fun he => NextErr.noConfusion he, fun e' he => ?_, by rw [h1]⟩
    · rw [h2] at hn
      exact Option.noConfusion hn
    · have he' : e = e' := NextErr.other.inj he
      subst he'
      exact ⟨h2, by rw [h1]⟩

theorem parseMessage_multipart_result_witness :
    (parseMessage tableLib JSONMail.zero (bytesReader [66])
        [("Content-Type", ["text/plain"]), ("Content-Transfer-Encoding", ["x-unknown"])] 1).2
        = some "unsupported transfer encoding"
    ∧ ∃ jsm, (parseMessage tableLib JSONMail.zero sampleMultipart sampleMultipartHeader 0).1
        = { JSONMail.zero with Children := JSONMail.zero.Children ++ [jsm] }
      ∧ ((parseMessage tableLib JSONMail.zero sampleMultipart sampleMultipartHeader 0).2 = none
          ↔ (sampleMultipart.split "b").ending = NextErr.EOF)
      ∧ ((sampleMultipart.split "b").ending = NextErr.EOF → jsm.Error = "")
      ∧ (∀ e, (sampleMultipart.split "b").ending = NextErr.other e
          → (parseMessage tableLib JSONMail.zero sampleMultipart sampleMultipartHeader 0).2
              = some e ∧ jsm.Error = e)
      ∧ jsm.Children
        = (sampleMultipart.split "b").toList.map
            (fun p => builtNode tableLib p.2 p.1 (0 + 1)) :=
  ⟨by decide, parseMessage_multipart_result tableLib JSONMail.zero sampleMultipart
    sampleMultipartHeader 0 "multipart/mixed" [("boundary", "b")] "b" (by decide) rfl rfl⟩

theorem asString_append (a b : List UInt8) : asString (a ++ b) = asString a ++ asString b := by
  unfold asString
  rw [List.map_append, mk_append]

theorem copyToBuffer_eq (b : String) (r : Reader) :
    copyToBuffer b r = (b ++ asString r.payload, r.err) := by
  unfold copyToBuffer Reader.payload
  congr 1
  generalize r.chunks = chunks
  induction chunks generalizing b with
  | nil => simp [asString]
  | cons p chunks ih =>
    rw [List.foldl_cons, ih, List.flatten_cons, asString_append, String.append_assoc]

theorem text_not_multipart (ct : String) (h : isTextType ct = true) :
    isMultipartType ct = false := by
  cases hm : isMultipartType ct with
  | false => rfl
  | true =>
    rw [isTextType_iff] at h
    rw [isMultipartType_iff] at hm
    have h5 := congrArg String.data h.2
    have h10 := congrArg (fun s => s.data.take 5) hm.2
    simp only [ToLower, String.take_eq] at h5 h10
    rw [← List.map_take, List.take_take] at h10
    simp only [Nat.reduceLeDiff, min_eq_left] at h10
    rw [h5] at h10
    exact absurd h10 (by decide)

/-- C14: for a text leaf whose transfer decoder returns a reader that is read to
the end without error, and whose charset conversion fails, `parseMessage` returns
nil: the `Body` of the node is the transfer-decoded bytes, unconverted, and its
`Error` is the message of the charset error. -/
theorem parseMessage_charset_fallback (lib : Lib) (parent : JSONMail) (body r : Reader)
    (header : MIMEHeader) (depth : Nat) (e : String)
    (ht : 5 < (header.Get "Content-Type").length
      ∧ ToLower ((header.Get "Content-Type").take 5) = "text/")
    (htd : lib.TransferEncodingDecoder body (header.Get "Content-Transfer-Encoding") = .ok r)
    (hcs : lib.CharsetNewReader r (header.Get "Content-Type") = .error e)
    (hread : r.err = none) :
    ∃ jsm, parseMessage lib parent body header depth
        = ({ parent with Children := parent.Children ++ [jsm] }, none)
      ∧ jsm.IsText = true
      ∧ jsm.Body = asString r.payload
      ∧ jsm.Error = e := by
  have ht' := (isTextType_iff _).mpr ht
  have h := built_leaf lib body header depth (text_not_multipart _ ht')
  have hg : getReader lib body header = (some r, some e) := by
    unfold getReader
    have ht2 : (decide ((header.Get "Content-Type").length > 5)
        && ToLower ((header.Get "Content-Type").take 5) == "text/") = true := ht'
    simp only [htd, ht2, ↓reduceIte, hcs]
  rw [hg] at h
  simp only [ht', ↓reduceIte, copyToBuffer_eq, hread, String.empty_append, Option.getD_some] at h
  have h1 := congrArg Prod.fst h
  have h2 := congrArg Prod.snd h
  simp only at h1 h2
  refine ⟨builtNode lib body header depth, ?_, ?_, ?_, ?_⟩
  · rw [parseMessage_parent, h2]
  · rw [h1]
  · rw [h1]
  · rw [h1]

theorem parseMessage_charset_fallback_witness :
    (5 < (MIMEHeader.Get [("Content-Type", ["text/plain"])] "Content-Type").length
      ∧ ToLower ((MIMEHeader.Get [("Content-Type", ["text/plain"])] "Content-Type").take 5)
        = "text/")
    ∧ (bytesReader [104, 105]).err = none
    ∧ asString (bytesReader [104, 105]).payload = "hi"
    ∧ ∃ jsm, parseMessage noCharsetLib JSONMail.zero (bytesReader [104, 105])
          [("Content-Type", ["text/plain"])] 0
        = ({ JSONMail.zero with Children := JSONMail.zero.Children ++ [jsm] }, none)
      ∧ jsm.IsText = true
      ∧ jsm.Body = asString (bytesReader [104, 105]).payload
      ∧ jsm.Error = "charset: unknown charset" :=
  ⟨by decide, rfl, by decide,
    parseMessage_charset_fallback noCharsetLib JSONMail.zero (bytesReader [104, 105])
      (bytesReader [104, 105]) [("Content-Type", ["text/plain"])] 0 "charset: unknown charset"
      (by decide) rfl rfl rfl⟩

theorem errBoundaryMissing_ne (ct : String) : errBoundaryMissing ct ≠ "" := by
  intro h
  have hl := congrArg String.length h
  unfold errBoundaryMissing at hl
  rw [String.length_append] at hl
  have : ("invalid multiparted Content-Type(boundary missing): " : String).length = 52 := by
    decide
  rw [this] at hl
  simp at hl

theorem getReader_cases (lib : Lib) (body : Reader) (header : MIMEHeader) :
    (∃ e, lib.TransferEncodingDecoder body (header.Get "Content-Transfer-Encoding") = .error e
        ∧ getReader lib body header = (none, some e))
      ∨ (∃ r, lib.TransferEncodingDecoder body (header.Get "Content-Transfer-Encoding") = .ok r
        ∧ ((getReader lib body header = (some r, none)
            ∧ isTextType (header.Get "Content-Type") = false)
          ∨ (∃ e, lib.CharsetNewReader r (header.Get "Content-Type") = .error e
            ∧ getReader lib body header = (some r, some e)
            ∧ isTextType (header.Get "Content-Type") = true)
          ∨ (∃ r2, lib.CharsetNewReader r (header.Get "Content-Type") = .ok r2
            ∧ getReader lib body header = (some r2, none)
            ∧ isTextType (header.Get "Content-Type") = true))) := by
  unfold getReader
  cases htd : lib.TransferEncodingDecoder body (header.Get "Content-Transfer-Encoding") with
  | error e => exact Or.inl ⟨e, rfl, rfl⟩
  | ok r =>
    refine Or.inr ⟨r, rfl, ?_⟩
    cases ht : isTextType (header.Get "Content-Type") with
    | false =>
      have ht2 : (decide ((header.Get "Content-Type").length > 5)
          && ToLower ((header.Get "Content-Type").take 5) == "text/") = false := ht
      simp only [ht2, Bool.false_eq_true, ↓reduceIte]
      exact Or.inl ⟨trivial, trivial⟩
    | true =>
      have ht2 : (decide ((header.Get "Content-Type").length > 5)
          && ToLower ((header.Get "Content-Type").take 5) == "text/") = true := ht
      simp only [ht2, ↓reduceIte]
      cases hcs : lib.CharsetNewReader r (header.Get "Content-Type") with
      | error e => exact Or.inr (Or.inl ⟨e, rfl, rfl, trivial⟩)
      | ok r2 => exact Or.inr (Or.inr ⟨r2, rfl, rfl, trivial⟩)

/-- The error `parseMessage` returns is the `Error` of the node it built. -/
theorem built_error (lib : Lib) (body : Reader) (header : MIMEHeader) (depth : Nat)
    (e : String) (he : (parseMessage lib JSONMail.zero body header depth).2 = some e) :
    (builtNode lib body header depth).Error = e := by
  suffices h' : (builtNode lib body header depth,
      (parseMessage lib JSONMail.zero body header depth).2).2 = some e
      → (builtNode lib body header depth,
          (parseMessage lib JSONMail.zero body header depth).2).1.Error = e from h' he
  cases hmp : isMultipartType (header.Get "Content-Type") with
  | false =>
    rw [built_leaf lib body header depth hmp]
    split
    · intro h
      simp only [Option.some.injEq] at h
      simpa using h
    · intro h
      simp only [Option.some.injEq] at h
      simpa using h
    · split
      · split
        · intro h
          simp only [Option.some.injEq] at h
          simpa using h
        · intro h
          exact Option.noConfusion h
      · split
        · intro h
          simp only [Option.some.injEq] at h
          simpa using h
        · intro h
          exact Option.noConfusion h
  | true =>
    rw [built_multipart lib body header depth hmp]
    split
    · intro h
      simp only [Option.some.injEq] at h
      simpa using h
    · split
      · intro h
        simp only [Option.some.injEq] at h
        simpa using h
      · split
        · intro h
          exact Option.noConfusion h
        · intro h
          simp only [Option.some.injEq] at h
          simpa using h

/-- When no collaborator reports an empty message, the error `parseMessage`
returns has a message that is not empty. -/
theorem built_error_ne (lib : Lib) (body : Reader) (header : MIMEHeader) (depth : Nat)
    (e : String) (he : (parseMessage lib JSONMail.zero body header depth).2 = some e)
    (hne : ErrorsNonEmpty lib body header) : e ≠ "" := by
  obtain ⟨hA, hB, hC, hD⟩ := hne
  revert he
  suffices h' : (builtNode lib body header depth,
      (parseMessage lib JSONMail.zero body header depth).2).2 = some e → e ≠ "" from h'
  cases hmp : isMultipartType (header.Get "Content-Type") with
  | false =>
    rw [built_leaf lib body header depth hmp]
    rcases getReader_cases lib body header with ⟨e0, htd, hg⟩ | ⟨r, htd, hcases⟩
    · rw [hg]
      intro h
      simp only [Option.some.injEq] at h
      rw [← h]
      exact hA e0 htd
    · have hr := (hB r htd).1
      rcases hcases with ⟨hg, ht⟩ | ⟨e1, hcs, hg, ht⟩ | ⟨r2, hcs, hg, ht⟩
      · rw [hg]
        simp only [ht, Bool.false_eq_true, ↓reduceIte]
        have hc : (copyToEncoder { buf := [], out := "" } r).2 = r.err := rfl
        rw [hc]
        cases hre : r.err with
        | none => intro h; exact Option.noConfusion h
        | some x =>
          intro h
          simp only [Option.some.injEq] at h
          rw [← h]
          intro hx
          exact hr (by rw [hre, hx])
      · rw [hg]
        simp only [ht, ↓reduceIte, copyToBuffer_eq]
        cases hre : r.err with
        | none => intro h; exact Option.noConfusion h
        | some x =>
          intro h
          simp only [Option.some.injEq] at h
          rw [← h]
          intro hx
          exact hr (by rw [hre, hx])
      · have hr2 := (hB r htd).2 r2 hcs
        rw [hg]
        simp only [ht, ↓reduceIte, copyToBuffer_eq]
        cases hre : r2.err with
        | none => intro h; exact Option.noConfusion h
        | some x =>
          intro h
          simp only [Option.some.injEq] at h
          rw [← h]
          intro hx
          exact hr2 (by rw [hre, hx])
  | true =>
    rw [built_multipart lib body header depth hmp]
    rcases hpm : lib.ParseMediaType (header.Get "Content-Type") with ⟨mt, params, perr⟩
    cases perr with
    | some e0 =>
      intro h
      simp only [Option.some.injEq] at h
      rw [← h]
      exact hC mt params e0 hpm
    | none =>
      simp only
      cases hb : params.lookup "boundary" with
      | none =>
        intro h
        simp only [Option.some.injEq] at h
        rw [← h]
        exact errBoundaryMissing_ne _
      | some boundary =>
        simp only
        cases hend : (body.split boundary).ending with
        | EOF => intro h; exact Option.noConfusion h
        | other x =>
          intro h
          simp only [Option.some.injEq] at h
          rw [← h]
          intro hx
          exact hD boundary (by rw [hend, hx])

/-- C16, the claim as stated fails: the reader of this leaf delivers one byte and
then ends with an error whose message is empty; `parseMessage` returns that
error, and the `Error` of the node it built is the empty string. -/
theorem empty_error_message_recorded :
    (parseMessage tableLib JSONMail.zero emptyErrorReader oneByteHeader 0).2 = some ""
      ∧ (parseMessage tableLib JSONMail.zero emptyErrorReader oneByteHeader 0).1.Children.map
          (fun c => c.Error) = [""] := by
  decide

/-- C16, amended: whenever `parseMessage` returns an error with message `e`, the
node it created is the last child of the given parent and the `Error` of that
node is `e`; the message is not empty as long as no collaborator reports an error
with an empty message. -/
theorem parseMessage_error_recorded (lib : Lib) (parent : JSONMail) (body : Reader)
    (header : MIMEHeader) (depth : Nat) (e : String)
    (h : (parseMessage lib parent body header depth).2 = some e) :
    ∃ jsm, (parseMessage lib parent body header depth).1
        = { parent with Children := parent.Children ++ [jsm] }
      ∧ (parseMessage lib parent body header depth).1.Children.getLast? = some jsm
      ∧ jsm.Error = e
      ∧ (ErrorsNonEmpty lib body header → jsm.Error ≠ "") := by
  rw [parseMessage_error_eq] at h
  have herr := built_error lib body header depth e h
  refine ⟨builtNode lib body header depth, ?_, ?_, herr, fun hne => ?_⟩
  · rw [parseMessage_parent]
  · rw [parseMessage_parent]
    simp
  · rw [herr]
    exact built_error_ne lib body header depth e h hne

theorem parseMessage_error_recorded_witness :
    (parseMessage tableLib (multipartNode [textLeaf "text/plain" "first"]) (bytesReader [66])
        [("Content-Type", ["text/plain"]), ("Content-Transfer-Encoding", ["x-unknown"])] 1).2
        = some "unsupported transfer encoding"
    ∧ ∃ jsm, (parseMessage tableLib (multipartNode [textLeaf "text/plain" "first"])
          (bytesReader [66])
          [("Content-Type", ["text/plain"]), ("Content-Transfer-Encoding", ["x-unknown"])] 1).1
        = { multipartNode [textLeaf "text/plain" "first"] with
            Children := (multipartNode [textLeaf "text/plain" "first"]).Children ++ [jsm] }
      ∧ (parseMessage tableLib (multipartNode [textLeaf "text/plain" "first"])
          (bytesReader [66])
          [("Content-Type", ["text/plain"]), ("Content-Transfer-Encoding", ["x-unknown"])]
          1).1.Children.getLast? = some jsm
      ∧ jsm.Error = "unsupported transfer encoding"
      ∧ (ErrorsNonEmpty tableLib (bytesReader [66])
          [("Content-Type", ["text/plain"]), ("Content-Transfer-Encoding", ["x-unknown"])]
        → jsm.Error ≠ "") :=
  ⟨by decide, parseMessage_error_recorded tableLib _ (bytesReader [66])
    [("Content-Type", ["text/plain"]), ("Content-Transfer-Encoding", ["x-unknown"])] 1
    "unsupported transfer encoding" (by decide)⟩

/-! ## The header of the node built -/

theorem set_of_not_mem (h : MIMEHeader) (k : String) (vs : List String)
    (hk : k ∉ h.map Prod.fst) : h.set k vs = h ++ [(k, vs)] := by
  induction h with
  | nil => rfl
  | cons kv h ih =>
    obtain ⟨k', vs'⟩ := kv
    simp only [List.map_cons, List.mem_cons, not_or] at hk
    have hne : (k' == k) = false := by
      rw [beq_eq_false_iff_ne]
      exact fun h => hk.1 h.symm
    simp only [MIMEHeader.set, hne, Bool.false_eq_true, ↓reduceIte, ih hk.2, List.cons_append]

theorem copy_foldl (lib : Lib) (header acc : MIMEHeader)
    (hk : (acc.map Prod.fst ++ header.map Prod.fst).Nodup) :
    header.foldl (fun acc kv => acc.set kv.1 (kv.2.map lib.DecodeRFC2047)) acc
      = acc ++ header.map (fun kv => (kv.1, kv.2.map lib.DecodeRFC2047)) := by
  induction header generalizing acc with
  | nil => simp
  | cons kv header ih =>
    have hnot : kv.1 ∉ acc.map Prod.fst := by
      intro hmem
      rw [List.nodup_append] at hk
      exact hk.2.2 hmem (by simp)
    rw [List.foldl_cons, set_of_not_mem acc kv.1 _ hnot, ih]
    · simp
    · simpa [List.map_append] using hk

/-- The header copy of a header without repeated field name keeps every field in
place, each value decoded. -/
theorem copyHeader_eq (lib : Lib) (header : MIMEHeader) (hk : (header.map Prod.fst).Nodup) :
    copyHeader lib header = header.map (fun kv => (kv.1, kv.2.map lib.DecodeRFC2047)) := by
  unfold copyHeader
  rw [copy_foldl lib header [] (by simpa using hk)]
  simp

theorem lookup_map_values (f : List String → List String) (h : MIMEHeader) (k : String) :
    (h.map (fun kv => (kv.1, f kv.2))).lookup k = (h.lookup k).map f := by
  induction h with
  | nil => rfl
  | cons kv h ih =>
    obtain ⟨k', vs'⟩ := kv
    simp only [List.map_cons, List.lookup_cons]
    cases hkk : (k == k') <;> simp [ih]

/-- C17: for every input header (a map: no field name occurs twice), the `Header`
of the node built has exactly the field names of the input and, under each field
name, a value sequence of the same length whose value at position `i` is
`DecodeRFC2047` of the input value at position `i`. -/
theorem parseMessage_header_decoded (lib : Lib) (parent : JSONMail) (body : Reader)
    (header : MIMEHeader) (depth : Nat) (hk : (header.map Prod.fst).Nodup) :
    ∃ jsm, (parseMessage lib parent body header depth).1
        = { parent with Children := parent.Children ++ [jsm] }
      ∧ jsm.Header.map Prod.fst = header.map Prod.fst
      ∧ (∀ k, header.lookup k = none → jsm.Header.lookup k = none)
      ∧ ∀ k vs, header.lookup k = some vs →
          ∃ ws, jsm.Header.lookup k = some ws ∧ ws.length = vs.length
            ∧ ∀ i : Nat, ws[i]? = (vs[i]?).map lib.DecodeRFC2047 := by
  refine ⟨builtNode lib body header depth, ?_, ?_, ?_, ?_⟩
  · rw [parseMessage_parent]
  · rw [builtNode_Header, copyHeader_eq lib header hk, List.map_map]
    rfl
  · intro k hnone
    rw [builtNode_Header, copyHeader_eq lib header hk, lookup_map_values, hnone]
    rfl
  · intro k vs hsome
    rw [builtNode_Header, copyHeader_eq lib header hk, lookup_map_values, hsome]
    exact ⟨vs.map lib.DecodeRFC2047, rfl, by simp, fun i => by simp⟩

/-- A header with two fields, one of them with two values. -/
theorem parseMessage_header_decoded_witness :
    ((([("Received", ["a", "b"]), ("Content-Type", ["text/plain"])] : MIMEHeader).map
        Prod.fst).Nodup)
    ∧ ∃ jsm, (parseMessage tableLib JSONMail.zero (bytesReader [])
          [("Received", ["a", "b"]), ("Content-Type", ["text/plain"])] 0).1
        = { JSONMail.zero with Children := JSONMail.zero.Children ++ [jsm] }
      ∧ jsm.Header.map Prod.fst
        = ([("Received", ["a", "b"]), ("Content-Type", ["text/plain"])] : MIMEHeader).map
            Prod.fst
      ∧ (∀ k, ([("Received", ["a", "b"]), ("Content-Type", ["text/plain"])]
            : MIMEHeader).lookup k = none → jsm.Header.lookup k = none)
      ∧ ∀ k vs, ([("Received", ["a", "b"]), ("Content-Type", ["text/plain"])]
            : MIMEHeader).lookup k = some vs →
          ∃ ws, jsm.Header.lookup k = some ws ∧ ws.length = vs.length
            ∧ ∀ i : Nat, ws[i]? = (vs[i]?).map tableLib.DecodeRFC2047 :=
  ⟨by decide, parseMessage_header_decoded tableLib JSONMail.zero (bytesReader [])
    [("Received", ["a", "b"]), ("Content-Type", ["text/plain"])] 0 (by decide)⟩

/-! ## The result of `Parse` -/

/-- C18: after the top-level call of `parseMessage` made by `Parse`, the synthetic
root has exactly one child in every outcome, so `Children[0]` is never out of
range; when no error is returned, `Parse` returns that sole child, the node built
from the header and the body of the message. -/
theorem Parse_root_sole_child (lib : Lib) (msg : Message) :
    (parseMessage lib JSONMail.zero msg.Body msg.Header 0).1.Children.length = 1
      ∧ Parse lib msg ≠ none
      ∧ ((parseMessage lib JSONMail.zero msg.Body msg.Header 0).2 = none →
          ∃ jsm, Parse lib msg = some (some jsm, none)
            ∧ (parseMessage lib JSONMail.zero msg.Body msg.Header 0).1.Children = [jsm]
            ∧ jsm.Header = copyHeader lib msg.Header
            ∧ ∀ parent : JSONMail, (parseMessage lib parent msg.Body msg.Header 0).1
              = { parent with Children := parent.Children ++ [jsm] }) := by
  refine ⟨?_, ?_, ?_⟩
  · rw [parseMessage_parent]
    simp [JSONMail.zero]
  · rw [Parse_eq]
    cases (parseMessage lib JSONMail.zero msg.Body msg.Header 0).2 <;> simp
  · intro hnone
    refine ⟨builtNode lib msg.Body msg.Header 0, ?_, ?_, builtNode_Header _ _ _ _, ?_⟩
    · rw [Parse_eq, hnone]
    · rw [parseMessage_parent]
      simp [JSONMail.zero]
    · intro parent
      rw [parseMessage_parent]

/-- C15, the claim as stated fails: the splitter of this message yields a text
part, which is built without error, and then fails; `Parse` returns a nil node
with the error of the splitter. -/
theorem Parse_discards_built_parts :
    (parseMessage tableLib JSONMail.zero (bytesReader [104, 105])
        [("Content-Type", ["text/plain"])] 1).2 = none
      ∧ (builtNode tableLib truncatedMultipart sampleMultipartHeader 0).Children.map
          (fun c => (c.Body, c.Error)) = [("hi", "")]
      ∧ Parse tableLib (Message.mk sampleMultipartHeader truncatedMultipart)
        = some (none, some "multipart: NextPart: EOF") :=
  ⟨by decide, by decide, rfl⟩

/-- C15, amended: `Parse` returns a nil node with the error exactly when the
top-level call of `parseMessage` returns an error, and the node built for the
message otherwise. Failures of nested parts never make `Parse` fail: for a
multipart message whose `Content-Type` parses with a boundary and whose splitter
ends with end of stream, `Parse` returns the root with one child per part,
whatever building the parts returned; when the splitter ends with another error,
`Parse` returns a nil node, whatever parts were built before. -/
theorem Parse_result (lib : Lib) (msg : Message) :
    (∀ e, (parseMessage lib JSONMail.zero msg.Body msg.Header 0).2 = some e
        ↔ Parse lib msg = some (none, some e))
      ∧ ((parseMessage lib JSONMail.zero msg.Body msg.Header 0).2 = none
        ↔ Parse lib msg = some (some (builtNode lib msg.Body msg.Header 0), none))
      ∧ (∀ mt params boundary,
          (10 < (msg.Header.Get "Content-Type").length
            ∧ ToLower ((msg.Header.Get "Content-Type").take 10) = "multipart/")
          → lib.ParseMediaType (msg.Header.Get "Content-Type") = (mt, params, none)
          → params.lookup "boundary" = some boundary
          → ((msg.Body.split boundary).ending = NextErr.EOF
              → ∃ root, Parse lib msg = some (some root, none)
                ∧ root.Children
                  = (msg.Body.split boundary).toList.map (fun p => builtNode lib p.2 p.1 1))
            ∧ (∀ e, (msg.Body.split boundary).ending = NextErr.other e
              → Parse lib msg = some (none, some e))) := by
  refine ⟨fun e => ?_, ?_, ?_⟩
  · rw [Parse_eq]
    cases (parseMessage lib JSONMail.zero msg.Body msg.Header 0).2 <;> simp
  · rw [Parse_eq]
    cases (parseMessage lib JSONMail.zero msg.Body msg.Header 0).2 <;> simp
  · intro mt params boundary hmp hpm hb
    have hmp' := (isMultipartType_iff _).mpr hmp
    have h := built_multipart lib msg.Body msg.Header 0 hmp'
    rw [hpm] at h
    simp only [hb] at h
    constructor
    · intro hend
      rw [hend] at h
      have h1 := congrArg Prod.fst h
      have h2 := congrArg Prod.snd h
      simp only at h1 h2
      refine ⟨builtNode lib msg.Body msg.Header 0, ?_, ?_⟩
      · rw [Parse_eq, h2]
      · rw [h1]
    · intro e hend
      rw [hend] at h
      have h2 := congrArg Prod.snd h
      simp only at h2
      rw [Parse_eq, h2]

/-- C19, the claim as stated fails: the transfer decoder rejects the encoding of
this leaf, the body reader is still there and delivers its byte without error,
and yet building fails and nothing is read into the `Body`. -/
theorem transfer_failure_stops_building :
    tableLib.TransferEncodingDecoder (bytesReader [66])
        (MIMEHeader.Get
          [("Content-Type", ["text/plain"]), ("Content-Transfer-Encoding", ["x-unknown"])]
          "Content-Transfer-Encoding") = .error "unsupported transfer encoding"
      ∧ (bytesReader [66]).err = none
      ∧ (bytesReader [66]).payload = [66]
      ∧ (parseMessage tableLib JSONMail.zero (bytesReader [66])
          [("Content-Type", ["text/plain"]), ("Content-Transfer-Encoding", ["x-unknown"])] 0).2
        = some "unsupported transfer encoding"
      ∧ (builtNode tableLib (bytesReader [66])
          [("Content-Type", ["text/plain"]), ("Content-Transfer-Encoding", ["x-unknown"])]
          0).Body = "" :=
  ⟨rfl, rfl, by decide, by decide, by decide⟩

/-- C19, amended: for every leaf whose transfer decoder fails, `getReader` returns
no reader together with the error of the decoder, and building the leaf fails:
`parseMessage` returns that error and records it in the `Error` of the node, which
stays attached to its parent with an empty `Body`. -/
theorem parseMessage_transfer_failure (lib : Lib) (parent : JSONMail) (body : Reader)
    (header : MIMEHeader) (depth : Nat) (e : String)
    (hleaf : ¬ (10 < (header.Get "Content-Type").length
      ∧ ToLower ((header.Get "Content-Type").take 10) = "multipart/"))
    (hd : lib.TransferEncodingDecoder body (header.Get "Content-Transfer-Encoding")
      = .error e) :
    getReader lib body header = (none, some e)
      ∧ ∃ jsm, parseMessage lib parent body header depth
          = ({ parent with Children := parent.Children ++ [jsm] }, some e)
        ∧ jsm.Error = e
        ∧ jsm.Body = ""
        ∧ jsm.IsText = false
        ∧ jsm.Children = [] := by
  have hg : getReader lib body header = (none, some e) := by
    unfold getReader
    rw [hd]
  have hmp : isMultipartType (header.Get "Content-Type") = false := by
    cases hm : isMultipartType (header.Get "Content-Type") with
    | false => rfl
    | true => exact absurd ((isMultipartType_iff _).mp hm) hleaf
  have h := built_leaf lib body header depth hmp
  rw [hg] at h
  have h1 := congrArg Prod.fst h
  have h2 := congrArg Prod.snd h
  simp only at h1 h2
  refine ⟨hg, builtNode lib body header depth, ?_, ?_, ?_, ?_, ?_⟩
  · rw [parseMessage_parent, h2]
  · rw [h1]
  · rw [h1]
  · rw [h1]
  · rw [h1]

theorem parseMessage_transfer_failure_witness :
    ¬ (10 < (MIMEHeader.Get
          [("Content-Type", ["text/plain"]), ("Content-Transfer-Encoding", ["x-unknown"])]
          "Content-Type").length
      ∧ ToLower ((MIMEHeader.Get
          [("Content-Type", ["text/plain"]), ("Content-Transfer-Encoding", ["x-unknown"])]
          "Content-Type").take 10) = "multipart/")
    ∧ getReader tableLib (bytesReader [66])
        [("Content-Type", ["text/plain"]), ("Content-Transfer-Encoding", ["x-unknown"])]
      = (none, some "unsupported transfer encoding")
    ∧ ∃ jsm, parseMessage tableLib JSONMail.zero (bytesReader [66])
          [("Content-Type", ["text/plain"]), ("Content-Transfer-Encoding", ["x-unknown"])] 0
        = ({ JSONMail.zero with Children := JSONMail.zero.Children ++ [jsm] },
            some "unsupported transfer encoding")
      ∧ jsm.Error = "unsupported transfer encoding"
      ∧ jsm.Body = ""
      ∧ jsm.IsText = false
      ∧ jsm.Children = [] :=
  ⟨by decide, parseMessage_transfer_failure tableLib JSONMail.zero (bytesReader [66])
    [("Content-Type", ["text/plain"]), ("Content-Transfer-Encoding", ["x-unknown"])] 0
    "unsupported transfer encoding" (by decide) rfl⟩

/-! ## The queue of `FindTextBody` holds every node once -/

/-- Induction over a tree: a property that holds for a node as soon as it holds
for its children holds for every node. -/
theorem tree_induction (P : JSONMail → Prop) (h : ∀ m, (∀ c ∈ m.Children, P c) → P m) :
    ∀ m, P m := by
  intro m
  generalize hs : m.size = k
  induction k using Nat.strong_induction_on generalizing m with
  | _ k ih =>
    apply h
    intro c hc
    have hlt : c.size < k := by
      have := size_le_sizeList c m.Children hc
      rw [← hs, size_eq m]
      omega
    exact ih c.size hlt c rfl

theorem nodesList_append (a b : List JSONMail) :
    JSONMail.nodesList (a ++ b) = JSONMail.nodesList a ++ JSONMail.nodesList b := by
  induction a with
  | nil => simp [JSONMail.nodesList]
  | cons x a ih => simp [JSONMail.nodesList, ih]

theorem nodes_length (m : JSONMail) : m.nodes.length = m.size := by
  induction m using tree_induction with
  | _ m ih =>
    rw [nodes_eq, size_eq, List.length_cons]
    have : (JSONMail.nodesList m.Children).length = JSONMail.sizeList m.Children := by
      generalize m.Children = cs at ih
      induction cs with
      | nil => simp [JSONMail.nodesList, JSONMail.sizeList]
      | cons c cs ihcs =>
        simp only [JSONMail.nodesList, JSONMail.sizeList, List.length_append]
        rw [ih c (List.mem_cons_self c cs), ihcs (fun x hx => ih x (List.mem_cons_of_mem c hx))]
    omega

/-- The nodes of a forest are its roots together with the nodes of the forest of
their children. -/
theorem nodesList_perm_step (qp : List JSONMail) :
    List.Perm (JSONMail.nodesList qp)
      (qp ++ JSONMail.nodesList (qp.flatMap JSONMail.Children)) := by
  induction qp with
  | nil => simp [JSONMail.nodesList]
  | cons c cs ih =>
    simp only [JSONMail.nodesList, nodes_eq c, List.flatMap_cons, nodesList_append,
      List.cons_append]
    apply List.Perm.cons
    have h1 : List.Perm (JSONMail.nodesList c.Children ++ JSONMail.nodesList cs)
        (JSONMail.nodesList c.Children
          ++ (cs ++ JSONMail.nodesList (cs.flatMap JSONMail.Children))) :=
      List.Perm.append_left _ ih
    refine h1.trans ?_
    rw [← List.append_assoc, ← List.append_assoc]
    exact List.Perm.append_right _ List.perm_append_comm

theorem levelsOf_perm (qp : List JSONMail) :
    List.Perm (levelsOf qp) (JSONMail.nodesList qp) := by
  generalize hn : JSONMail.sizeList qp = n
  induction n using Nat.strong_induction_on generalizing qp with
  | _ n ih =>
    by_cases hq : qp = []
    · subst hq
      simp [levelsOf_nil, JSONMail.nodesList]
    · have hlen : qp.length ≠ 0 := fun h => hq (List.length_eq_zero.mp h)
      have hlt := sizeList_children_lt qp hlen
      rw [levelsOf_step qp hq]
      exact (List.Perm.append_left qp (ih _ (hn ▸ hlt) _ rfl)).trans
        (nodesList_perm_step qp).symm

theorem levelOrder_eq_levelsOf (m : JSONMail) : levelOrder m = levelsOf [m] := by
  simp [levelsOf, levelOrder, JSONMail.heightList]

/-- C20: the queue loop of `FindTextBody` (a total function: each round replaces
the window by a forest with fewer nodes) ends with the queue that lists the nodes
of the tree level after level, each level left to right, the root first; the
queue is a permutation of the nodes of the tree, each taken once, and its length
is the number of nodes of the tree. The root need not be multipart. -/
theorem queue_lists_level_order (m : JSONMail) :
    queueLoop [m] [m] = (List.range m.height).flatMap (fun d => atDepth d m)
      ∧ (queueLoop [m] [m]).head? = some m
      ∧ (∀ n, n ∈ queueLoop [m] [m] ↔ n ∈ m.nodes)
      ∧ List.Perm (queueLoop [m] [m]) m.nodes
      ∧ (queueLoop [m] [m]).length = m.size := by
  have hperm : List.Perm (queueLoop [m] [m]) m.nodes := by
    rw [queue_eq_levelOrder, levelOrder_eq_levelsOf]
    have := levelsOf_perm [m]
    simpa [JSONMail.nodesList] using this
  refine ⟨queue_eq_levelOrder m, ?_, ?_, hperm, ?_⟩
  · rw [queue_eq_levelOrder, levelOrder_eq_levelsOf, levelsOf_step [m] (by simp)]
    rfl
  · intro n
    rw [queue_eq_levelOrder]
    exact mem_levelOrder_iff_mem_nodes n m
  · rw [hperm.length_eq, nodes_length]

theorem queue_lists_level_order_witness :
    (queueLoop [nestedTree] [nestedTree]).map (fun n => n.Body) = ["", "", "shallow", "", "deep"]
      ∧ (queueLoop [nestedTree] [nestedTree]).length = 5 := by
  have h := queue_lists_level_order nestedTree
  constructor
  · rw [h.1]
    decide
  · rw [h.2.2.2.2]
    decide

end jsonmail
